import Mathlib

/-!
# Verification of the file-deduplication engine (`file_deduplicator.py`)

Shallow embedding of the deduplication pipeline of `ToolCollection`:
directory scanner (size buckets with extension / size filters), candidate
filter, hash grouper, duplicate resolver / deleter, and the CLI `main` flow.

The filesystem is modelled as an immutable snapshot: a list of directories
and a list of regular files, each file carrying its basename, full path,
byte content, creation timestamp and a readability flag (an unreadable file
models one whose `open`/`read` raises).  The digest function is an abstract
parameter `hashFn : List Nat → H` applied to the bytes actually fed to the
hash object by the chunked read loop.
-/

/-- One regular file of the snapshot: `name` is the basename seen by
`os.walk`, `path` the joined path (`os.path.join(root, file)`), `content`
the byte string, `ctime` the `os.path.getctime` value, and `readable`
whether opening and reading the file succeeds. -/
structure FSFile where
  name : String
  path : String
  content : List Nat
  ctime : Nat
  readable : Bool
deriving DecidableEq, Repr

/-- A filesystem snapshot: the directory paths that exist plus the regular
files of the scanned tree. -/
structure FS where
  dirs : List String
  files : List FSFile
deriving DecidableEq, Repr

/-- Model of `os.path.getsize`: the byte length of the file's content. -/
def FSFile.size (f : FSFile) : Nat := f.content.length

/-- Model of `os.walk(directory)`: yields the files of the tree when `directory` is
an existing directory; walking a non-directory or missing path yields
nothing (and raises nothing, `onerror` being `None`). -/
def walkFiles (fs : FS) (directory : String) : List FSFile :=
  if directory ∈ fs.dirs then fs.files else []

/-- Whether `p` names an existing directory of the snapshot. -/
def directoryExists (fs : FS) (p : String) : Bool := p ∈ fs.dirs

/-- Model of `os.path.exists`: true for directories and for regular files. -/
def pathExists (fs : FS) (p : String) : Bool :=
  directoryExists fs p || fs.files.any (fun f => f.path = p)

/-- Whether a regular file with path `p` is present in the snapshot. -/
def pathInFS (fs : FS) (p : String) : Bool :=
  fs.files.any (fun f => f.path = p)

/-- Look up the snapshot entry for path `p` (first match, as a directory
listing has one entry per path). -/
def lookupFile (fs : FS) (p : String) : Option FSFile :=
  fs.files.find? (fun f => f.path = p)

/-- Model of `os.path.getctime`, total over the snapshot (paths handed
to the resolver come from the scan, so they exist; a missing path is given
timestamp 0 instead of raising). -/
def ctimeOf (fs : FS) (p : String) : Nat :=
  ((lookupFile fs p).map FSFile.ctime).getD 0

/-- The `defaultdict(list)` idiom `groups[k].append(v)`: append `v` to the
bucket of key `k`, creating the bucket at the end when the key is new
(Python dicts preserve insertion order). -/
def updateMulti {κ ν : Type} [DecidableEq κ] :
    List (κ × List ν) → κ → ν → List (κ × List ν)
  | [], k, v => [(k, [v])]
  | g :: rest, k, v =>
      if g.1 = k then (g.1, g.2 ++ [v]) :: rest else g :: updateMulti rest k v

/-- The bucket of key `k` in an association map (empty when absent). -/
def lookupG {κ ν : Type} [DecidableEq κ] (m : List (κ × List ν)) (k : κ) : List ν :=
  match m.find? (fun g => g.1 = k) with
  | some g => g.2
  | none => []

/-- One iteration bound of the chunked read loop: `fuel` only forces
termination and never runs out when it starts at `content.length + 1`,
since every executed iteration consumes at least one byte. -/
def readLoop (chunk_size : Nat) : Nat → List Nat → List Nat
  | 0, _ => []
  | fuel + 1, content =>
    if (content.take chunk_size).isEmpty then []
    else content.take chunk_size ++ readLoop chunk_size fuel (content.drop chunk_size)

/-- The chunked read loop of `calculate_file_hash`:
`while chunk := f.read(chunk_size): hash_obj.update(chunk)`.  Returns the
concatenation of the chunks fed to the hash object; `f.read(0)` returns an
empty bytes object, so a zero chunk size exits the loop at once. -/
def readAll (content : List Nat) (chunk_size : Nat) : List Nat :=
  readLoop chunk_size (content.length + 1) content

/-- Model of `FileDeduplicator.calculate_file_hash`: digest of the bytes read from
the file, `none` when the file is missing or unreadable (the `except`
branch returning `None`). -/
def calculate_file_hash {H : Type} (hashFn : List Nat → H) (chunk_size : Nat)
    (fs : FS) (file_path : String) : Option H :=
  match lookupFile fs file_path with
  | none => none
  | some f => if f.readable then some (hashFn (readAll f.content chunk_size)) else none

/-- Model of `os.path.splitext(name)[1]` restricted to basenames: split off the part
from the last dot, the dot included; `none` when the name has no dot. The
first component is everything before that dot. -/
def splitAtLastDot : List Char → Option (List Char × List Char)
  | [] => none
  | c :: cs =>
    match splitAtLastDot cs with
    | some r => some (c :: r.1, r.2)
    | none => if c = '.' then some ([], '.' :: cs) else none

/-- Model of `os.path.splitext(name)[1]` for a basename: the extension starting at
the last dot, except that leading dots are ignored (a name whose characters
before the last dot are all dots, such as `.bashrc` or `...`, has no
extension). -/
def fileExtension (name : String) : String :=
  match splitAtLastDot name.data with
  | none => ""
  | some r => if r.1.any (fun c => c ≠ '.') then String.mk r.2 else ""

/-- The `max_size and file_size > max_size` test: excludes only when
`max_size` is given, nonzero (truthy) and strictly smaller than the size. -/
def maxExcludes (max_size : Option Nat) (s : Nat) : Bool :=
  match max_size with
  | none => false
  | some m => decide (m ≠ 0) && decide (m < s)

/-- One scan decision of `scan_directory`: the three `continue` guards, in
source order — extension filter (skipped when the `extensions` argument is
falsy, i.e. `None` or empty), minimum size (strict `<` rejection, hence an
inclusive minimum), and the `if max_size and file_size > max_size`
rejection, whose `and` makes a zero `max_size` falsy and hence ignored. -/
def passesFilters (extensions : List String) (min_size : Nat)
    (max_size : Option Nat) (f : FSFile) : Bool :=
  if !extensions.isEmpty && !((fileExtension f.name).toLower ∈ extensions) then false
  else if f.size < min_size then false
  else if maxExcludes max_size f.size then false
  else true

/-- Model of `FileDeduplicator.scan_directory`: walk the tree and bucket the
surviving file paths by exact byte size (a `defaultdict(list)` keyed by
size, in walk order). -/
def scan_directory (fs : FS) (directory : String) (extensions : List String)
    (min_size : Nat) (max_size : Option Nat) : List (Nat × List String) :=
  (walkFiles fs directory).foldl
    (fun groups f =>
      if passesFilters extensions min_size max_size f
      then updateMulti groups f.size f.path else groups) []

/-- The body of the hash-grouping loop of `find_duplicates`: compute the
path's digest and append the path to that digest's bucket; a failed hash
(`None`) contributes nothing (`if file_hash:`). -/
def hashStep {H : Type} [DecidableEq H] (hashFn : List Nat → H)
    (chunk_size : Nat) (fs : FS)
    (hg : List (H × List String)) (p : String) : List (H × List String) :=
  match calculate_file_hash hashFn chunk_size fs p with
  | some h => updateMulti hg h p
  | none => hg

/-- The hash-grouping loops of `find_duplicates`: for every path of every
candidate bucket, run `hashStep`. -/
def hashGroupsOf {H : Type} [DecidableEq H] (hashFn : List Nat → H)
    (chunk_size : Nat) (fs : FS)
    (candidates : List (Nat × List String)) : List (H × List String) :=
  candidates.foldl
    (fun hg g => g.2.foldl (hashStep hashFn chunk_size fs) hg) []

/-- Model of `FileDeduplicator.find_duplicates`: scan, keep only size buckets with
at least two files, hash their members, and return the digest groups that
still have at least two members. -/
def find_duplicates {H : Type} [DecidableEq H] (hashFn : List Nat → H)
    (chunk_size : Nat) (fs : FS) (directory : String) (extensions : List String)
    (min_size : Nat) (max_size : Option Nat) : List (H × List String) :=
  let size_groups := scan_directory fs directory extensions min_size max_size
  if size_groups.isEmpty then []
  else
    let duplicate_candidates := size_groups.filter (fun g => 1 < g.2.length)
    if duplicate_candidates.isEmpty then []
    else (hashGroupsOf hashFn chunk_size fs duplicate_candidates).filter
      (fun g => 1 < g.2.length)

/-- Stable insertion: place `x` before the first element whose key is at
least `key x`. -/
def insertByKey {α : Type} (key : α → Nat) (x : α) : List α → List α
  | [] => [x]
  | y :: ys => if key x ≤ key y then x :: y :: ys else y :: insertByKey key x ys

/-- Python's stable `list.sort(key=...)` for a natural-number key:
insertion sort that keeps equal-key elements in their original order. -/
def sortByKey {α : Type} (key : α → Nat) : List α → List α
  | [] => []
  | x :: xs => insertByKey key x (sortByKey key xs)

/-- Python's `min(files, key=len)`: fold keeping the current minimum and
replacing it only on a strictly smaller key, so the first element attaining
the minimal length wins. -/
def pyMinByLen (x : String) (xs : List String) : String :=
  xs.foldl (fun best y => if y.length < best.length then y else best) x

/-- The keep-strategy dispatch of `delete_duplicates` (lines 175-184):
returns the group list as the subsequent deletion loop iterates it (the
`oldest`/`newest` branches sort it in place by ctime) together with the
file chosen to keep.  The group handed in is nonempty (the caller skips
groups of at most one file); the defaults for `[]` are never reached. -/
def resolveGroup (ctime : String → Nat) (keep_strategy : String)
    (files : List String) : List String × String :=
  if keep_strategy = "oldest" then
    let sorted := sortByKey ctime files
    (sorted, sorted.headD "")
  else if keep_strategy = "newest" then
    let sorted := sortByKey ctime files
    (sorted, sorted.getLastD "")
  else if keep_strategy = "smallest_path" then
    match files with
    | [] => ([], "")
    | x :: xs => (x :: xs, pyMinByLen x xs)
  else (files, files.headD "")

/-- Model of `os.remove`: drop the file when present (success `true`); removing a
missing path raises, which the caller catches (failure `false`). -/
def removeFile (fs : FS) (p : String) : FS × Bool :=
  if pathInFS fs p then
    ({ fs with files := fs.files.filter (fun f => ¬ f.path = p) }, true)
  else (fs, false)

/-- One iteration of the deletion loop of `delete_duplicates`: a file other
than the kept one is appended to the deleted list — unconditionally in
dry-run mode, and only when `os.remove` succeeded in execute mode. -/
def procStep (keep_file : String) (dry_run : Bool) (acc : FS × List String)
    (p : String) : FS × List String :=
  if p = keep_file then acc
  else if dry_run then (acc.1, acc.2 ++ [p])
  else
    let r := removeFile acc.1 p
    if r.2 then (r.1, acc.2 ++ [p]) else (r.1, acc.2)

/-- The deletion loop of `delete_duplicates` for one group, over the list
in the order the `for` statement iterates it. -/
def processGroup (ordered : List String) (keep_file : String) (dry_run : Bool)
    (fs : FS) : FS × List String :=
  ordered.foldl (procStep keep_file dry_run) (fs, [])

/-- One group iteration of `delete_duplicates`: groups of at most one file
are skipped, otherwise the keep file is chosen and the group processed. -/
def delStep {H : Type} (keep_strategy : String) (dry_run : Bool)
    (acc : FS × List String) (g : H × List String) : FS × List String :=
  if g.2.length ≤ 1 then acc
  else
    let rg := resolveGroup (ctimeOf acc.1) keep_strategy g.2
    let pr := processGroup rg.1 rg.2 dry_run acc.1
    (pr.1, acc.2 ++ pr.2)

/-- Model of `FileDeduplicator.delete_duplicates`: for every digest group with more
than one member, choose the file to keep per the strategy and delete (or,
in dry-run mode, merely list) the others.  Returns the accumulated deleted
list together with the resulting filesystem snapshot. -/
def delete_duplicates {H : Type} (duplicates : List (H × List String))
    (keep_strategy : String) (dry_run : Bool) (fs : FS) : List String × FS :=
  let final := duplicates.foldl (delStep keep_strategy dry_run) (fs, [])
  (final.2, final.1)

/-- The walked files surviving the scan filters, in walk order. -/
def filteredWalk (fs : FS) (directory : String) (extensions : List String)
    (min_size : Nat) (max_size : Option Nat) : List FSFile :=
  (walkFiles fs directory).filter (passesFilters extensions min_size max_size)

/-- The `duplicate_candidates` dict of `find_duplicates`: the size buckets
that kept more than one file. -/
def candidateGroups (fs : FS) (directory : String) (extensions : List String)
    (min_size : Nat) (max_size : Option Nat) : List (Nat × List String) :=
  (scan_directory fs directory extensions min_size max_size).filter
    (fun g => 1 < g.2.length)

/-- The paths of every candidate bucket, in the order the hash loop visits
them. -/
def allCandidatePaths (fs : FS) (directory : String) (extensions : List String)
    (min_size : Nat) (max_size : Option Nat) : List String :=
  (candidateGroups fs directory extensions min_size max_size).foldr
    (fun g a => g.2 ++ a) []

/-- The bucket the hash loop builds for digest `h`: the candidate paths
whose digest computation yields exactly `h`, in visit order. -/
def groupPathsOf {H : Type} [DecidableEq H] (hashFn : List Nat → H)
    (chunk_size : Nat) (fs : FS) (directory : String) (extensions : List String)
    (min_size : Nat) (max_size : Option Nat) (h : H) : List String :=
  (allCandidatePaths fs directory extensions min_size max_size).filter
    (fun p => calculate_file_hash hashFn chunk_size fs p = some h)

/-- The execute-mode snapshot fold of one group (the filesystem component
of `processGroup` with `dry_run = False`). -/
def execGroupFS (keep_file : String) (ordered : List String) (fs : FS) : FS :=
  ordered.foldl
    (fun fs p =>
      if p = keep_file then fs
      else if false = true then fs else (removeFile fs p).1) fs

/-- The filesystem component of the `delete_duplicates` fold: the deleted
list never feeds back into the snapshot. -/
def delFoldFS {H : Type} (keep_strategy : String) (dry_run : Bool)
    (dups : List (H × List String)) (fs : FS) : FS :=
  dups.foldl
    (fun fs g =>
      if g.2.length ≤ 1 then fs
      else (processGroup (resolveGroup (ctimeOf fs) keep_strategy g.2).1
        (resolveGroup (ctimeOf fs) keep_strategy g.2).2 dry_run fs).1) fs

/-- The file `delete_duplicates` keeps for a group, relative to a given
snapshot (its ctimes feed the `oldest`/`newest` sort). -/
def keptFile (fs : FS) (keep_strategy : String) (files : List String) : String :=
  (resolveGroup (ctimeOf fs) keep_strategy files).2

/-- The deletion candidates of one group: the members other than the kept
file, in the order the deletion loop visits them. -/
def plannedDeletes (fs : FS) (keep_strategy : String) (files : List String) :
    List String :=
  (resolveGroup (ctimeOf fs) keep_strategy files).1.filter
    (fun p => ¬ p = keptFile fs keep_strategy files)

/-- The full dry-run deletion list over all groups (groups of at most one
member contribute nothing). -/
def deletionPlan {H : Type} (fs : FS) (keep_strategy : String)
    (dups : List (H × List String)) : List String :=
  dups.foldr
    (fun g a =>
      (if g.2.length ≤ 1 then [] else plannedDeletes fs keep_strategy g.2) ++ a) []

/-- Flip one file's readability flag to `true` (used to compare a run in
which a file's read fails with the run in which it succeeds). -/
def markFile (u : String) (f : FSFile) : FSFile :=
  if f.path = u then
    { name := f.name, path := f.path, content := f.content, ctime := f.ctime,
      readable := true }
  else f

/-- The snapshot with the file at path `u` made readable. -/
def markReadable (fs : FS) (u : String) : FS :=
  { dirs := fs.dirs, files := fs.files.map (markFile u) }

/-- The CLI arguments of `main` that the pipeline consumes (`--report` and
`--hash` selection are outside the model: the digest function is the
`hashFn` parameter and no report file is written). -/
structure Args where
  directory : String
  scanFlag : Bool
  deleteFlag : Bool
  dryRun : Bool
  extensions : List String
  minSize : Nat
  maxSize : Option Nat
  keep : String
  chunkSize : Nat
deriving Repr

/-- Model of `main`: reject a root that does not `os.path.exists` with exit code 1;
otherwise run the scan (and, with `--delete`, the deletion) and finish with
exit code 0.  Returns the exit code and the final snapshot. -/
def mainRun {H : Type} [DecidableEq H] (hashFn : List Nat → H) (args : Args)
    (fs : FS) : Nat × FS :=
  if ¬ pathExists fs args.directory then (1, fs)
  else if args.scanFlag || args.deleteFlag then
    let dups := find_duplicates hashFn args.chunkSize fs args.directory
      args.extensions args.minSize args.maxSize
    if ¬ dups.isEmpty ∧ args.deleteFlag then
      (0, (delete_duplicates dups args.keep args.dryRun fs).2)
    else (0, fs)
  else (0, fs)

/-! ## Association-map lemmas for the `defaultdict(list)` idiom -/

theorem lookupG_cons {κ ν : Type} [DecidableEq κ] (g : κ × List ν)
    (m : List (κ × List ν)) (k : κ) :
    lookupG (g :: m) k = if g.1 = k then g.2 else lookupG m k := by
  by_cases h : g.1 = k <;> simp [lookupG, List.find?_cons, h]

theorem lookupG_updateMulti_self {κ ν : Type} [DecidableEq κ]
    (m : List (κ × List ν)) (k : κ) (v : ν) :
    lookupG (updateMulti m k v) k = lookupG m k ++ [v] := by
  induction m with
  | nil => simp [updateMulti, lookupG_cons, lookupG]
  | cons g rest ih =>
    by_cases h : g.1 = k
    · simp [updateMulti, h, lookupG_cons]
    · simp [updateMulti, h, lookupG_cons, ih]

theorem lookupG_updateMulti_ne {κ ν : Type} [DecidableEq κ]
    (m : List (κ × List ν)) {k k' : κ} (v : ν) (h : k' ≠ k) :
    lookupG (updateMulti m k v) k' = lookupG m k' := by
  induction m with
  | nil =>
    show lookupG [(k, [v])] k' = lookupG ([] : List (κ × List ν)) k'
    rw [lookupG_cons, if_neg (fun hk => h hk.symm)]
  | cons g rest ih =>
    by_cases hg : g.1 = k
    · have hst : updateMulti (g :: rest) k v = (g.1, g.2 ++ [v]) :: rest := by
        simp [updateMulti, hg]
      have hne : g.1 ≠ k' := by
        rw [hg]; exact fun hk => h hk.symm
      rw [hst, lookupG_cons, lookupG_cons, if_neg hne, if_neg hne]
    · have hst : updateMulti (g :: rest) k v = g :: updateMulti rest k v := by
        simp [updateMulti, hg]
      rw [hst, lookupG_cons, lookupG_cons, ih]

theorem keys_updateMulti {κ ν : Type} [DecidableEq κ]
    (m : List (κ × List ν)) (k : κ) (v : ν) :
    (updateMulti m k v).map Prod.fst =
      if k ∈ m.map Prod.fst then m.map Prod.fst else m.map Prod.fst ++ [k] := by
  induction m with
  | nil => simp [updateMulti]
  | cons g rest ih =>
    by_cases h : g.1 = k
    · rw [show updateMulti (g :: rest) k v = (g.1, g.2 ++ [v]) :: rest from by
        simp [updateMulti, h]]
      rw [List.map_cons, List.map_cons, if_pos (by simp [h])]
    · rw [show updateMulti (g :: rest) k v = g :: updateMulti rest k v from by
        simp [updateMulti, h]]
      rw [List.map_cons, ih, List.map_cons]
      by_cases hk : k ∈ rest.map Prod.fst
      · rw [if_pos hk, if_pos (by simp [hk])]
      · rw [if_neg hk, if_neg (by simp [hk, Ne.symm h]), List.cons_append]

theorem keysNodup_updateMulti {κ ν : Type} [DecidableEq κ]
    {m : List (κ × List ν)} (hn : (m.map Prod.fst).Nodup) (k : κ) (v : ν) :
    ((updateMulti m k v).map Prod.fst).Nodup := by
  rw [keys_updateMulti]
  by_cases hk : k ∈ m.map Prod.fst
  · rw [if_pos hk]; exact hn
  · rw [if_neg hk]
    refine List.Nodup.append hn (List.nodup_singleton k) ?_
    intro a ha hb
    rw [List.mem_singleton] at hb
    subst hb
    exact hk ha

theorem lookupG_of_mem_keysNodup {κ ν : Type} [DecidableEq κ]
    {m : List (κ × List ν)} (hn : (m.map Prod.fst).Nodup) {k : κ} {l : List ν}
    (hm : (k, l) ∈ m) : lookupG m k = l := by
  induction m with
  | nil => cases hm
  | cons g rest ih =>
    rcases List.mem_cons.mp hm with hg | hrest
    · subst hg
      simp [lookupG_cons]
    · have hk : k ∈ rest.map Prod.fst := List.mem_map.mpr ⟨(k, l), hrest, rfl⟩
      have hne : g.1 ≠ k := by
        intro he
        rw [List.map_cons, List.nodup_cons] at hn
        exact hn.1 (he ▸ hk)
      rw [lookupG_cons, if_neg hne]
      exact ih (by rw [List.map_cons, List.nodup_cons] at hn; exact hn.2) hrest

theorem lookupG_mem {κ ν : Type} [DecidableEq κ]
    {m : List (κ × List ν)} {k : κ} (h : lookupG m k ≠ []) :
    (k, lookupG m k) ∈ m := by
  unfold lookupG at *
  cases hf : m.find? (fun g => g.1 = k) with
  | none => rw [hf] at h; simp at h
  | some g =>
    have hmem := List.mem_of_find?_eq_some hf
    have hpred := List.find?_some hf
    simp only [decide_eq_true_eq] at hpred
    show (k, g.2) ∈ m
    cases g with
    | mk a b =>
      simp only at hpred
      rw [show ((k, b) : κ × List ν) = (a, b) from by rw [hpred]]
      exact hmem

/-! ## Characterization of the scanner's size buckets -/

theorem lookupG_scan_fold (extensions : List String) (min_size : Nat)
    (max_size : Option Nat) (l : List FSFile) (m : List (Nat × List String))
    (s : Nat) :
    lookupG (l.foldl (fun groups f =>
        if passesFilters extensions min_size max_size f
        then updateMulti groups f.size f.path else groups) m) s
      = lookupG m s ++
        (((l.filter (passesFilters extensions min_size max_size)).filter
          (fun f => f.size = s)).map FSFile.path) := by
  induction l generalizing m with
  | nil => simp
  | cons f l ih =>
    rw [List.foldl_cons]
    by_cases hp : passesFilters extensions min_size max_size f
    · rw [if_pos hp, ih]
      by_cases hs : f.size = s
      · subst hs
        rw [lookupG_updateMulti_self, List.append_assoc]
        simp [List.filter_cons, hp]
      · rw [lookupG_updateMulti_ne _ _ (fun he => hs he.symm)]
        simp [List.filter_cons, hp, hs]
    · rw [if_neg hp, ih]
      simp [List.filter_cons, hp]

theorem lookupG_scan (fs : FS) (directory : String) (extensions : List String)
    (min_size : Nat) (max_size : Option Nat) (s : Nat) :
    lookupG (scan_directory fs directory extensions min_size max_size) s
      = ((filteredWalk fs directory extensions min_size max_size).filter
          (fun f => f.size = s)).map FSFile.path := by
  unfold scan_directory filteredWalk
  rw [lookupG_scan_fold]
  rfl

theorem keysNodup_scan_fold (extensions : List String) (min_size : Nat)
    (max_size : Option Nat) (l : List FSFile) (m : List (Nat × List String))
    (hn : (m.map Prod.fst).Nodup) :
    ((l.foldl (fun groups f =>
        if passesFilters extensions min_size max_size f
        then updateMulti groups f.size f.path else groups) m).map Prod.fst).Nodup := by
  induction l generalizing m with
  | nil => exact hn
  | cons f l ih =>
    rw [List.foldl_cons]
    by_cases hp : passesFilters extensions min_size max_size f
    · rw [if_pos hp]
      exact ih _ (keysNodup_updateMulti hn _ _)
    · rw [if_neg hp]
      exact ih _ hn

theorem keysNodup_scan (fs : FS) (directory : String) (extensions : List String)
    (min_size : Nat) (max_size : Option Nat) :
    ((scan_directory fs directory extensions min_size max_size).map Prod.fst).Nodup :=
  keysNodup_scan_fold _ _ _ _ [] List.nodup_nil

/-! ## Characterization of the hash groups -/

theorem hashFold_flat {H : Type} [DecidableEq H] (hashFn : List Nat → H)
    (chunk_size : Nat) (fs : FS) (cands : List (Nat × List String))
    (hg : List (H × List String)) :
    cands.foldl (fun hg g => g.2.foldl (hashStep hashFn chunk_size fs) hg) hg
      = (cands.foldr (fun g a => g.2 ++ a) []).foldl
          (hashStep hashFn chunk_size fs) hg := by
  induction cands generalizing hg with
  | nil => rfl
  | cons g rest ih =>
    rw [List.foldl_cons, ih, List.foldr_cons, List.foldl_append]

theorem lookupG_hashFold {H : Type} [DecidableEq H] (hashFn : List Nat → H)
    (chunk_size : Nat) (fs : FS) (ps : List String)
    (hg : List (H × List String)) (h : H) :
    lookupG (ps.foldl (hashStep hashFn chunk_size fs) hg) h
      = lookupG hg h ++
        ps.filter (fun p => calculate_file_hash hashFn chunk_size fs p = some h) := by
  induction ps generalizing hg with
  | nil => simp
  | cons p ps ih =>
    rw [List.foldl_cons, ih]
    cases hc : calculate_file_hash hashFn chunk_size fs p with
    | none =>
      rw [show hashStep hashFn chunk_size fs hg p = hg from by
        simp [hashStep, hc]]
      simp [List.filter_cons, hc]
    | some h' =>
      rw [show hashStep hashFn chunk_size fs hg p = updateMulti hg h' p from by
        simp [hashStep, hc]]
      by_cases hh : h' = h
      · subst hh
        rw [lookupG_updateMulti_self, List.append_assoc]
        simp [List.filter_cons, hc]
      · rw [lookupG_updateMulti_ne _ _ (fun he => hh he.symm)]
        simp [List.filter_cons, hc, hh]

theorem keysNodup_hashFold {H : Type} [DecidableEq H] (hashFn : List Nat → H)
    (chunk_size : Nat) (fs : FS) (ps : List String)
    (hg : List (H × List String)) (hn : (hg.map Prod.fst).Nodup) :
    ((ps.foldl (hashStep hashFn chunk_size fs) hg).map Prod.fst).Nodup := by
  induction ps generalizing hg with
  | nil => exact hn
  | cons p ps ih =>
    rw [List.foldl_cons]
    refine ih _ ?_
    unfold hashStep
    cases hc : calculate_file_hash hashFn chunk_size fs p with
    | none => exact hn
    | some h' => exact keysNodup_updateMulti hn _ _

theorem find_duplicates_eq {H : Type} [DecidableEq H] (hashFn : List Nat → H)
    (chunk_size : Nat) (fs : FS) (directory : String) (extensions : List String)
    (min_size : Nat) (max_size : Option Nat) :
    find_duplicates hashFn chunk_size fs directory extensions min_size max_size
      = (hashGroupsOf hashFn chunk_size fs
          (candidateGroups fs directory extensions min_size max_size)).filter
          (fun g => 1 < g.2.length) := by
  simp only [find_duplicates, candidateGroups]
  cases hsc : scan_directory fs directory extensions min_size max_size with
  | nil => simp [hashGroupsOf]
  | cons g gs =>
    simp only [List.isEmpty_cons, Bool.false_eq_true, if_false]
    cases hflt : (g :: gs).filter (fun g => 1 < g.2.length) with
    | nil => simp [hflt, hashGroupsOf]
    | cons c cs => simp [hflt]

theorem lookupG_hashGroups {H : Type} [DecidableEq H] (hashFn : List Nat → H)
    (chunk_size : Nat) (fs : FS) (directory : String) (extensions : List String)
    (min_size : Nat) (max_size : Option Nat) (h : H) :
    lookupG (hashGroupsOf hashFn chunk_size fs
        (candidateGroups fs directory extensions min_size max_size)) h
      = groupPathsOf hashFn chunk_size fs directory extensions min_size max_size h := by
  unfold hashGroupsOf groupPathsOf allCandidatePaths
  rw [hashFold_flat, lookupG_hashFold]
  rfl

theorem keysNodup_hashGroups {H : Type} [DecidableEq H] (hashFn : List Nat → H)
    (chunk_size : Nat) (fs : FS) (cands : List (Nat × List String)) :
    ((hashGroupsOf hashFn chunk_size fs cands).map Prod.fst).Nodup := by
  unfold hashGroupsOf
  rw [hashFold_flat]
  exact keysNodup_hashFold _ _ _ _ [] List.nodup_nil

/-- Central membership characterization of `find_duplicates`: the returned
groups are exactly the digests whose candidate-path bucket kept at least
two members, each paired with that bucket. -/
theorem mem_find_duplicates_iff {H : Type} [DecidableEq H] {hashFn : List Nat → H}
    {chunk_size : Nat} {fs : FS} {directory : String} {extensions : List String}
    {min_size : Nat} {max_size : Option Nat} {h : H} {l : List String} :
    (h, l) ∈ find_duplicates hashFn chunk_size fs directory extensions min_size max_size
      ↔ l = groupPathsOf hashFn chunk_size fs directory extensions min_size max_size h
        ∧ 1 < l.length := by
  rw [find_duplicates_eq]
  constructor
  · intro hm
    have hf := List.mem_filter.mp hm
    have hl := lookupG_of_mem_keysNodup (keysNodup_hashGroups hashFn chunk_size fs _) hf.1
    rw [lookupG_hashGroups] at hl
    exact ⟨hl.symm, by simpa using hf.2⟩
  · rintro ⟨rfl, hlen⟩
    apply List.mem_filter.mpr
    refine ⟨?_, by simpa using hlen⟩
    have hlook := lookupG_hashGroups hashFn chunk_size fs directory extensions
      min_size max_size h
    have hne : lookupG (hashGroupsOf hashFn chunk_size fs
        (candidateGroups fs directory extensions min_size max_size)) h ≠ [] := by
      rw [hlook]
      intro he
      rw [he] at hlen
      simp at hlen
    have := lookupG_mem hne
    rwa [hlook] at this

/-! ## The chunked read loop -/

theorem readAll_zero (c : List Nat) : readAll c 0 = [] := by
  unfold readAll readLoop
  simp

theorem readLoop_pos (n : Nat) (h : 0 < n) :
    ∀ (fuel : Nat) (c : List Nat), c.length < fuel → readLoop n fuel c = c := by
  intro fuel
  induction fuel with
  | zero => intro c hc; omega
  | succ fuel ih =>
    intro c hc
    unfold readLoop
    by_cases he : (c.take n).isEmpty
    · rw [if_pos he]
      simp only [List.isEmpty_iff, List.take_eq_nil_iff] at he
      rcases he with h0 | h0
      · omega
      · rw [h0]
    · rw [if_neg he]
      simp only [List.isEmpty_iff, List.take_eq_nil_iff] at he
      push_neg at he
      have hpos := List.length_pos.mpr he.2
      have hdrop : (c.drop n).length < fuel := by
        simp only [List.length_drop]
        omega
      rw [ih (c.drop n) hdrop, List.take_append_drop]

theorem readAll_pos (c : List Nat) (n : Nat) (h : 0 < n) : readAll c n = c :=
  readLoop_pos n h (c.length + 1) c (Nat.lt_succ_self _)

/-! ## Resolver lemmas -/

theorem insertByKey_perm {α : Type} (key : α → Nat) (x : α) (l : List α) :
    (insertByKey key x l).Perm (x :: l) := by
  induction l with
  | nil => exact List.Perm.refl _
  | cons y ys ih =>
    unfold insertByKey
    by_cases h : key x ≤ key y
    · rw [if_pos h]
    · rw [if_neg h]
      exact (List.Perm.cons y ih).trans (List.Perm.swap x y ys)

theorem sortByKey_perm {α : Type} (key : α → Nat) (l : List α) :
    (sortByKey key l).Perm l := by
  induction l with
  | nil => exact List.Perm.refl _
  | cons x xs ih =>
    exact (insertByKey_perm key x _).trans (List.Perm.cons x ih)

theorem headD_mem {α : Type} (l : List α) (d : α) (h : l ≠ []) : l.headD d ∈ l := by
  cases l with
  | nil => exact absurd rfl h
  | cons x xs => exact List.mem_cons_self x xs

theorem getLastD_mem {α : Type} : ∀ (l : List α) (d : α), l ≠ [] → l.getLastD d ∈ l
  | [x], _, _ => List.mem_singleton.mpr (by rfl)
  | x :: y :: ys, d, _ => by
    rw [List.getLastD_cons]
    exact List.mem_cons_of_mem x (getLastD_mem (y :: ys) x (by simp))

theorem pyMinByLen_mem : ∀ (xs : List String) (x : String), pyMinByLen x xs ∈ x :: xs := by
  intro xs
  induction xs with
  | nil => intro x; exact List.mem_singleton.mpr rfl
  | cons y ys ih =>
    intro x
    show (pyMinByLen (if y.length < x.length then y else x) ys) ∈ x :: y :: ys
    have hm := ih (if y.length < x.length then y else x)
    rcases List.mem_cons.mp hm with h1 | h1
    · rw [h1]
      by_cases h : y.length < x.length
      · rw [if_pos h]
        exact List.mem_cons_of_mem x (List.mem_cons_self y ys)
      · rw [if_neg h]
        exact List.mem_cons_self x _
    · exact List.mem_cons_of_mem x (List.mem_cons_of_mem y h1)

theorem pyMinByLen_le : ∀ (xs : List String) (x : String), ∀ p ∈ x :: xs,
    (pyMinByLen x xs).length ≤ p.length := by
  intro xs
  induction xs with
  | nil =>
    intro x p hp
    rw [List.mem_singleton.mp hp]
    exact Nat.le_refl _
  | cons y ys ih =>
    intro x p hp
    show (pyMinByLen (if y.length < x.length then y else x) ys).length ≤ p.length
    have hstep : (pyMinByLen (if y.length < x.length then y else x) ys).length ≤
        (if y.length < x.length then y else x).length :=
      ih _ _ (List.mem_cons_self _ _)
    rcases List.mem_cons.mp hp with h1 | h1
    · subst h1
      refine hstep.trans ?_
      by_cases h : y.length < p.length
      · rw [if_pos h]; exact Nat.le_of_lt h
      · rw [if_neg h]
    rcases List.mem_cons.mp h1 with h2 | h2
    · subst h2
      refine hstep.trans ?_
      by_cases h : p.length < x.length
      · rw [if_pos h]
      · rw [if_neg h]; exact Nat.le_of_not_lt h
    · exact ih _ _ (List.mem_cons_of_mem _ h2)

theorem pyMinByLen_find? : ∀ (xs : List String) (x : String),
    (x :: xs).find? (fun p => p.length = (pyMinByLen x xs).length)
      = some (pyMinByLen x xs) := by
  intro xs
  induction xs with
  | nil =>
    intro x
    show List.find? _ [x] = some x
    rw [List.find?_cons_of_pos _ (by simp [pyMinByLen])]
  | cons y ys ih =>
    intro x
    have hres : pyMinByLen x (y :: ys) = pyMinByLen (if y.length < x.length then y else x) ys := rfl
    by_cases h : y.length < x.length
    · have hres2 : pyMinByLen x (y :: ys) = pyMinByLen y ys := by rw [hres, if_pos h]
      have hley : (pyMinByLen y ys).length ≤ y.length :=
        pyMinByLen_le ys y y (List.mem_cons_self _ _)
      have hx : ¬ (x.length = (pyMinByLen x (y :: ys)).length) := by
        rw [hres2]
        omega
      rw [List.find?_cons_of_neg _ (by simpa using hx), hres2]
      exact ih y
    · have hres2 : pyMinByLen x (y :: ys) = pyMinByLen x ys := by rw [hres, if_neg h]
      have hlex : (pyMinByLen x ys).length ≤ x.length :=
        pyMinByLen_le ys x x (List.mem_cons_self _ _)
      by_cases hx : x.length = (pyMinByLen x (y :: ys)).length
      · rw [List.find?_cons_of_pos _ (by simpa using hx)]
        have := ih x
        rw [← hres2] at this
        rw [List.find?_cons_of_pos _ (by simpa using hx)] at this
        exact this
      · have hy : ¬ (y.length = (pyMinByLen x (y :: ys)).length) := by
          rw [hres2] at hx ⊢
          omega
        rw [List.find?_cons_of_neg _ (by simpa using hx),
          List.find?_cons_of_neg _ (by simpa using hy)]
        have := ih x
        rw [← hres2] at this
        rw [List.find?_cons_of_neg _ (by simpa using hx)] at this
        rw [hres2]
        rw [← hres2]
        exact this

theorem resolveGroup_fst_perm (ctime : String → Nat) (keep_strategy : String)
    (files : List String) : ((resolveGroup ctime keep_strategy files).1).Perm files := by
  unfold resolveGroup
  by_cases h1 : keep_strategy = "oldest"
  · rw [if_pos h1]; exact sortByKey_perm _ _
  rw [if_neg h1]
  by_cases h2 : keep_strategy = "newest"
  · rw [if_pos h2]; exact sortByKey_perm _ _
  rw [if_neg h2]
  by_cases h3 : keep_strategy = "smallest_path"
  · rw [if_pos h3]
    cases files with
    | nil => exact List.Perm.refl _
    | cons x xs => exact List.Perm.refl _
  · rw [if_neg h3]

theorem resolveGroup_keep_mem (ctime : String → Nat) (keep_strategy : String)
    (files : List String) (h : files ≠ []) :
    (resolveGroup ctime keep_strategy files).2 ∈ files := by
  unfold resolveGroup
  by_cases h1 : keep_strategy = "oldest"
  · rw [if_pos h1]
    have hperm := sortByKey_perm ctime files
    have hne : sortByKey ctime files ≠ [] := by
      intro he
      have hlen := hperm.length_eq
      rw [he] at hlen
      exact h (List.length_eq_zero.mp hlen.symm)
    exact hperm.mem_iff.mp (headD_mem _ _ hne)
  rw [if_neg h1]
  by_cases h2 : keep_strategy = "newest"
  · rw [if_pos h2]
    have hperm := sortByKey_perm ctime files
    have hne : sortByKey ctime files ≠ [] := by
      intro he
      have hlen := hperm.length_eq
      rw [he] at hlen
      exact h (List.length_eq_zero.mp hlen.symm)
    exact hperm.mem_iff.mp (getLastD_mem _ _ hne)
  rw [if_neg h2]
  by_cases h3 : keep_strategy = "smallest_path"
  · rw [if_pos h3]
    cases files with
    | nil => exact absurd rfl h
    | cons x xs => exact pyMinByLen_mem xs x
  · rw [if_neg h3]
    exact headD_mem _ _ h

/-! ## Deletion lemmas -/

theorem pathInFS_iff (fs : FS) (p : String) :
    pathInFS fs p = true ↔ ∃ f ∈ fs.files, f.path = p := by
  simp [pathInFS, List.any_eq_true]

theorem removeFile_dirs (fs : FS) (p : String) : (removeFile fs p).1.dirs = fs.dirs := by
  unfold removeFile
  split <;> rfl

theorem removeFile_files (fs : FS) (p : String) :
    (removeFile fs p).1.files = fs.files.filter (fun f => ¬ f.path = p) := by
  unfold removeFile
  by_cases h : pathInFS fs p = true
  · rw [if_pos h]
  · rw [if_neg h]
    refine (List.filter_eq_self.mpr ?_).symm
    intro f hf
    simp only [decide_eq_true_eq]
    intro he
    exact h ((pathInFS_iff fs p).mpr ⟨f, hf, he⟩)

theorem removeFile_sublist (fs : FS) (p : String) :
    (removeFile fs p).1.files.Sublist fs.files := by
  rw [removeFile_files]
  exact List.filter_sublist _

theorem removeFile_not_mem (fs : FS) (p : String) :
    ¬ pathInFS (removeFile fs p).1 p = true := by
  intro h
  rcases (pathInFS_iff _ _).mp h with ⟨f, hf, he⟩
  rw [removeFile_files] at hf
  have := (List.mem_filter.mp hf).2
  simp only [decide_eq_true_eq] at this
  exact this he

theorem removeFile_preserve_absent (fs : FS) (p q : String)
    (h : ¬ pathInFS fs p = true) : ¬ pathInFS (removeFile fs q).1 p = true := by
  intro hh
  rcases (pathInFS_iff _ _).mp hh with ⟨f, hf, he⟩
  rw [removeFile_files] at hf
  exact h ((pathInFS_iff fs p).mpr ⟨f, (List.mem_filter.mp hf).1, he⟩)

/-- The filesystem component of the per-group loop, as a fold over plain
snapshots: the deleted-list accumulator never feeds back into it. -/
theorem procFold_fst (keep_file : String) (dry_run : Bool) :
    ∀ (ordered : List String) (acc : FS × List String),
    (ordered.foldl (procStep keep_file dry_run) acc).1
      = ordered.foldl
          (fun fs p =>
            if p = keep_file then fs
            else if dry_run then fs else (removeFile fs p).1) acc.1 := by
  intro ordered
  induction ordered with
  | nil => intro acc; rfl
  | cons p ps ih =>
    intro acc
    rw [List.foldl_cons, List.foldl_cons, ih]
    congr 1
    unfold procStep
    by_cases h1 : p = keep_file
    · rw [if_pos h1, if_pos h1]
    rw [if_neg h1, if_neg h1]
    by_cases h2 : dry_run
    · rw [if_pos h2, if_pos h2]
    rw [if_neg h2, if_neg h2]
    by_cases h3 : (removeFile acc.1 p).2 <;> simp [h3]

/-- Dry-run characterization of the per-group loop: the snapshot is
untouched and every non-kept file of the group is appended. -/
theorem procFold_dry (keep_file : String) :
    ∀ (ordered : List String) (acc : FS × List String),
    ordered.foldl (procStep keep_file true) acc
      = (acc.1, acc.2 ++ ordered.filter (fun p => ¬ p = keep_file)) := by
  intro ordered
  induction ordered with
  | nil => intro acc; simp
  | cons p ps ih =>
    intro acc
    rw [List.foldl_cons]
    by_cases h1 : p = keep_file
    · rw [show procStep keep_file true acc p = acc from by
        unfold procStep; rw [if_pos h1]]
      rw [ih, List.filter_cons, if_neg (by simp [h1])]
    · rw [show procStep keep_file true acc p = (acc.1, acc.2 ++ [p]) from by
        unfold procStep; rw [if_neg h1, if_pos rfl]]
      rw [ih, List.filter_cons, if_pos (by simp [h1])]
      simp

theorem execGroupFS_dirs (keep_file : String) :
    ∀ (ordered : List String) (fs : FS),
    (execGroupFS keep_file ordered fs).dirs = fs.dirs := by
  intro ordered
  induction ordered with
  | nil => intro fs; rfl
  | cons p ps ih =>
    intro fs
    unfold execGroupFS at ih ⊢
    rw [List.foldl_cons, ih]
    by_cases h1 : p = keep_file
    · rw [if_pos h1]
    · rw [if_neg h1, if_neg (by simp), removeFile_dirs]

theorem execGroupFS_sublist (keep_file : String) :
    ∀ (ordered : List String) (fs : FS),
    (execGroupFS keep_file ordered fs).files.Sublist fs.files := by
  intro ordered
  induction ordered with
  | nil => intro fs; exact List.Sublist.refl _
  | cons p ps ih =>
    intro fs
    unfold execGroupFS at ih ⊢
    rw [List.foldl_cons]
    by_cases h1 : p = keep_file
    · rw [if_pos h1]; exact ih fs
    · rw [if_neg h1, if_neg (by simp)]
      exact (ih _).trans (removeFile_sublist fs p)

theorem execGroupFS_preserve_absent (keep_file : String) :
    ∀ (ordered : List String) (fs : FS) (p : String),
    ¬ pathInFS fs p = true → ¬ pathInFS (execGroupFS keep_file ordered fs) p = true := by
  intro ordered
  induction ordered with
  | nil => intro fs p h; exact h
  | cons q qs ih =>
    intro fs p h
    unfold execGroupFS at ih ⊢
    rw [List.foldl_cons]
    by_cases h1 : q = keep_file
    · rw [if_pos h1]; exact ih fs p h
    · rw [if_neg h1, if_neg (by simp)]
      exact ih _ p (removeFile_preserve_absent fs p q h)

theorem execGroupFS_kills (keep_file : String) :
    ∀ (ordered : List String) (fs : FS) (p : String),
    p ∈ ordered → p ≠ keep_file →
    ¬ pathInFS (execGroupFS keep_file ordered fs) p = true := by
  intro ordered
  induction ordered with
  | nil => intro fs p hp; cases hp
  | cons q qs ih =>
    intro fs p hp hne
    unfold execGroupFS at ih ⊢
    rw [List.foldl_cons]
    rcases List.mem_cons.mp hp with h1 | h1
    · subst h1
      rw [if_neg hne, if_neg (by simp)]
      exact execGroupFS_preserve_absent keep_file qs _ p (removeFile_not_mem fs p)
    · by_cases h2 : q = keep_file
      · rw [if_pos h2]; exact ih fs p h1 hne
      · rw [if_neg h2, if_neg (by simp)]
        exact ih _ p h1 hne

/-! ## The delete_duplicates fold -/

theorem delStep_fst_eq {H : Type} (ks : String) (dry : Bool)
    (acc : FS × List String) (g : H × List String) :
    (delStep ks dry acc g).1
      = if g.2.length ≤ 1 then acc.1
        else (processGroup (resolveGroup (ctimeOf acc.1) ks g.2).1
          (resolveGroup (ctimeOf acc.1) ks g.2).2 dry acc.1).1 := by
  unfold delStep
  by_cases h : g.2.length ≤ 1
  · rw [if_pos h, if_pos h]
  · rw [if_neg h, if_neg h]

theorem delFold_fst {H : Type} (ks : String) (dry : Bool) :
    ∀ (dups : List (H × List String)) (acc : FS × List String),
    (dups.foldl (delStep ks dry) acc).1 = delFoldFS ks dry dups acc.1 := by
  intro dups
  induction dups with
  | nil => intro acc; rfl
  | cons g rest ih =>
    intro acc
    rw [List.foldl_cons, ih]
    unfold delFoldFS
    rw [List.foldl_cons, delStep_fst_eq]

theorem delete_duplicates_snd {H : Type} (dups : List (H × List String))
    (ks : String) (dry : Bool) (fs : FS) :
    (delete_duplicates dups ks dry fs).2 = delFoldFS ks dry dups fs := by
  unfold delete_duplicates
  exact delFold_fst ks dry dups (fs, [])

theorem processGroup_fst_exec (ordered : List String) (keep_file : String)
    (fs : FS) :
    (processGroup ordered keep_file false fs).1 = execGroupFS keep_file ordered fs :=
  procFold_fst keep_file false ordered (fs, [])

theorem processGroup_fst_dry (ordered : List String) (keep_file : String)
    (fs : FS) :
    (processGroup ordered keep_file true fs).1 = fs := by
  unfold processGroup
  rw [procFold_dry]

theorem delFoldFS_cons {H : Type} (ks : String) (dry : Bool)
    (g : H × List String) (rest : List (H × List String)) (fs : FS) :
    delFoldFS ks dry (g :: rest) fs
      = delFoldFS ks dry rest
          (if g.2.length ≤ 1 then fs
           else (processGroup (resolveGroup (ctimeOf fs) ks g.2).1
             (resolveGroup (ctimeOf fs) ks g.2).2 dry fs).1) := by
  unfold delFoldFS
  rw [List.foldl_cons]

theorem delFoldFS_dry {H : Type} (ks : String) :
    ∀ (dups : List (H × List String)) (fs : FS), delFoldFS ks true dups fs = fs := by
  intro dups
  induction dups with
  | nil => intro fs; rfl
  | cons g rest ih =>
    intro fs
    unfold delFoldFS at ih ⊢
    rw [List.foldl_cons]
    by_cases h : g.2.length ≤ 1
    · rw [if_pos h]; exact ih fs
    · rw [if_neg h, processGroup_fst_dry]
      exact ih fs

theorem delFoldFS_exec_dirs {H : Type} (ks : String) :
    ∀ (dups : List (H × List String)) (fs : FS),
    (delFoldFS ks false dups fs).dirs = fs.dirs := by
  intro dups
  induction dups with
  | nil => intro fs; rfl
  | cons g rest ih =>
    intro fs
    unfold delFoldFS at ih ⊢
    rw [List.foldl_cons]
    by_cases h : g.2.length ≤ 1
    · rw [if_pos h]; exact ih fs
    · rw [if_neg h, processGroup_fst_exec]
      rw [ih, execGroupFS_dirs]

theorem delFoldFS_exec_sublist {H : Type} (ks : String) :
    ∀ (dups : List (H × List String)) (fs : FS),
    (delFoldFS ks false dups fs).files.Sublist fs.files := by
  intro dups
  induction dups with
  | nil => intro fs; exact List.Sublist.refl _
  | cons g rest ih =>
    intro fs
    unfold delFoldFS at ih ⊢
    rw [List.foldl_cons]
    by_cases h : g.2.length ≤ 1
    · rw [if_pos h]; exact ih fs
    · rw [if_neg h, processGroup_fst_exec]
      exact (ih _).trans (execGroupFS_sublist _ _ fs)

theorem delFoldFS_exec_preserve_absent {H : Type} (ks : String) :
    ∀ (dups : List (H × List String)) (fs : FS) (p : String),
    ¬ pathInFS fs p = true → ¬ pathInFS (delFoldFS ks false dups fs) p = true := by
  intro dups
  induction dups with
  | nil => intro fs p h; exact h
  | cons g rest ih =>
    intro fs p h
    unfold delFoldFS at ih ⊢
    rw [List.foldl_cons]
    by_cases hl : g.2.length ≤ 1
    · rw [if_pos hl]; exact ih fs p h
    · rw [if_neg hl, processGroup_fst_exec]
      exact ih _ p (execGroupFS_preserve_absent _ _ fs p h)

/-- After an execute run, each processed duplicate group has at most one
surviving member: some member was kept and every other member's path is
gone from the snapshot. -/
theorem delFoldFS_exec_kills {H : Type} (ks : String) :
    ∀ (dups : List (H × List String)) (fs : FS) (h : H) (l : List String),
    (h, l) ∈ dups → 1 < l.length →
    ∃ k ∈ l, ∀ p ∈ l, p ≠ k → ¬ pathInFS (delFoldFS ks false dups fs) p = true := by
  intro dups
  induction dups with
  | nil => intro fs h l hm; cases hm
  | cons g rest ih =>
    intro fs h l hm hlen
    rcases List.mem_cons.mp hm with hg | hrest
    · subst hg
      have hne : ¬ (l.length ≤ 1) := by omega
      have hlne : l ≠ [] := by
        intro he; rw [he] at hlen; simp at hlen
      refine ⟨(resolveGroup (ctimeOf fs) ks l).2,
        resolveGroup_keep_mem _ _ _ hlne, ?_⟩
      intro p hp hpk
      rw [delFoldFS_cons, if_neg hne, processGroup_fst_exec]
      refine delFoldFS_exec_preserve_absent ks rest _ p ?_
      refine execGroupFS_kills _ _ _ _ ?_ hpk
      exact ((resolveGroup_fst_perm (ctimeOf fs) ks l).mem_iff).mpr hp
    · rw [delFoldFS_cons]
      exact ih _ h l hrest hlen

/-! ## Dry-run characterization -/

theorem delFold_dry_full {H : Type} (ks : String) :
    ∀ (dups : List (H × List String)) (acc : FS × List String),
    dups.foldl (delStep ks true) acc
      = (acc.1, acc.2 ++ deletionPlan acc.1 ks dups) := by
  intro dups
  induction dups with
  | nil => intro acc; simp [deletionPlan]
  | cons g rest ih =>
    intro acc
    rw [List.foldl_cons]
    by_cases h : g.2.length ≤ 1
    · rw [show delStep ks true acc g = acc from by unfold delStep; rw [if_pos h]]
      rw [ih]
      unfold deletionPlan
      rw [List.foldr_cons, if_pos h, List.nil_append]
    · rw [show delStep ks true acc g
          = (acc.1, acc.2 ++ plannedDeletes acc.1 ks g.2) from by
        unfold delStep
        rw [if_neg h]
        show (_, acc.2 ++ (processGroup _ _ true acc.1).2) = _
        unfold processGroup
        rw [procFold_dry]
        unfold plannedDeletes keptFile
        simp]
      rw [ih]
      unfold deletionPlan
      rw [List.foldr_cons, if_neg h]
      simp [List.append_assoc]

/-- Dry-run mode leaves the snapshot untouched and returns exactly the
deletion plan. -/
theorem delete_duplicates_dry {H : Type} (dups : List (H × List String))
    (ks : String) (fs : FS) :
    delete_duplicates dups ks true fs = (deletionPlan fs ks dups, fs) := by
  unfold delete_duplicates
  rw [delFold_dry_full]
  simp

theorem mem_deletionPlan_iff {H : Type} (fs : FS) (ks : String)
    (dups : List (H × List String)) (p : String) :
    p ∈ deletionPlan fs ks dups
      ↔ ∃ g ∈ dups, 1 < g.2.length ∧ p ∈ g.2 ∧ p ≠ keptFile fs ks g.2 := by
  induction dups with
  | nil => simp [deletionPlan]
  | cons g rest ih =>
    unfold deletionPlan at ih ⊢
    rw [List.foldr_cons, List.mem_append]
    constructor
    · rintro (hp | hp)
      · by_cases h : g.2.length ≤ 1
        · rw [if_pos h] at hp; cases hp
        · rw [if_neg h] at hp
          unfold plannedDeletes at hp
          have hm := List.mem_filter.mp hp
          refine ⟨g, List.mem_cons_self _ _, by omega, ?_, ?_⟩
          · exact (resolveGroup_fst_perm (ctimeOf fs) ks g.2).mem_iff.mp hm.1
          · simpa using hm.2
      · rcases ih.mp hp with ⟨g', hg', hrest⟩
        exact ⟨g', List.mem_cons_of_mem _ hg', hrest⟩
    · rintro ⟨g', hg', hlen, hpg, hne⟩
      rcases List.mem_cons.mp hg' with h1 | h1
      · subst h1
        left
        rw [if_neg (by omega)]
        unfold plannedDeletes
        refine List.mem_filter.mpr ⟨?_, by simpa using hne⟩
        exact (resolveGroup_fst_perm (ctimeOf fs) ks g'.2).mem_iff.mpr hpg
      · right
        exact ih.mpr ⟨g', h1, hlen, hpg, hne⟩

/-! ## Path uniqueness -/

theorem path_injOn {l : List FSFile} (hnd : (l.map FSFile.path).Nodup) :
    ∀ f1 ∈ l, ∀ f2 ∈ l, f1.path = f2.path → f1 = f2 := by
  induction l with
  | nil => intro f1 h; cases h
  | cons a t ih =>
    rw [List.map_cons, List.nodup_cons] at hnd
    intro f1 h1 f2 h2 he
    rcases List.mem_cons.mp h1 with e1 | m1
    · rcases List.mem_cons.mp h2 with e2 | m2
      · rw [e1, e2]
      · subst e1
        exact absurd (List.mem_map.mpr ⟨f2, m2, he.symm⟩) hnd.1
    · rcases List.mem_cons.mp h2 with e2 | m2
      · subst e2
        exact absurd (List.mem_map.mpr ⟨f1, m1, he⟩) hnd.1
      · exact ih hnd.2 f1 m1 f2 m2 he

theorem find?_path_of_mem : ∀ (l : List FSFile), (l.map FSFile.path).Nodup →
    ∀ f ∈ l, l.find? (fun g => g.path = f.path) = some f := by
  intro l
  induction l with
  | nil => intro _ f h; cases h
  | cons a t ih =>
    intro hnd f hf
    rw [List.map_cons, List.nodup_cons] at hnd
    rcases List.mem_cons.mp hf with e | m
    · subst e
      rw [List.find?_cons_of_pos _ (by simp)]
    · by_cases he : a.path = f.path
      · exact absurd (List.mem_map.mpr ⟨f, m, he.symm⟩) hnd.1
      · rw [List.find?_cons_of_neg _ (by simpa using he)]
        exact ih hnd.2 f m

theorem lookupFile_of_mem {fs : FS} (hnd : (fs.files.map FSFile.path).Nodup)
    {f : FSFile} (hf : f ∈ fs.files) : lookupFile fs f.path = some f :=
  find?_path_of_mem fs.files hnd f hf

/-- Hashing a surviving file gives the same digest in a sub-snapshot as in
the original snapshot: the looked-up entry is the same. -/
theorem calculate_file_hash_sub {H : Type} (hashFn : List Nat → H)
    (chunk_size : Nat) {fs fs' : FS} (hsub : fs'.files.Sublist fs.files)
    (hnd : (fs.files.map FSFile.path).Nodup) {f : FSFile} (hf : f ∈ fs'.files) :
    calculate_file_hash hashFn chunk_size fs' f.path
      = calculate_file_hash hashFn chunk_size fs f.path := by
  have hnd' : (fs'.files.map FSFile.path).Nodup :=
    List.Nodup.sublist (hsub.map FSFile.path) hnd
  unfold calculate_file_hash
  rw [lookupFile_of_mem hnd' hf, lookupFile_of_mem hnd (hsub.subset hf)]

/-! ## Scan bucket membership and uniqueness -/

theorem mem_scanBucket_iff {fs : FS} {directory : String}
    {extensions : List String} {min_size : Nat} {max_size : Option Nat}
    {s : Nat} {p : String} :
    p ∈ lookupG (scan_directory fs directory extensions min_size max_size) s
      ↔ ∃ f ∈ walkFiles fs directory,
          passesFilters extensions min_size max_size f = true
          ∧ f.size = s ∧ f.path = p := by
  rw [lookupG_scan]
  unfold filteredWalk
  constructor
  · intro hp
    rcases List.mem_map.mp hp with ⟨f, hf, he⟩
    have h1 := List.mem_filter.mp hf
    have h2 := List.mem_filter.mp h1.1
    exact ⟨f, h2.1, h2.2, by simpa using h1.2, he⟩
  · rintro ⟨f, hw, hpass, hs, he⟩
    refine List.mem_map.mpr ⟨f, ?_, he⟩
    exact List.mem_filter.mpr ⟨List.mem_filter.mpr ⟨hw, hpass⟩, by simpa using hs⟩

theorem scanBucket_nodup {fs : FS} {directory : String}
    {extensions : List String} {min_size : Nat} {max_size : Option Nat}
    {s : Nat} (hnd : ((walkFiles fs directory).map FSFile.path).Nodup) :
    (lookupG (scan_directory fs directory extensions min_size max_size) s).Nodup := by
  rw [lookupG_scan]
  refine List.Nodup.sublist ?_ hnd
  exact List.Sublist.map FSFile.path
    ((List.filter_sublist _).trans (List.filter_sublist _))

theorem scanBucket_size_unique {fs : FS} {directory : String}
    {extensions : List String} {min_size : Nat} {max_size : Option Nat}
    {s1 s2 : Nat} {p : String}
    (hnd : ((walkFiles fs directory).map FSFile.path).Nodup)
    (h1 : p ∈ lookupG (scan_directory fs directory extensions min_size max_size) s1)
    (h2 : p ∈ lookupG (scan_directory fs directory extensions min_size max_size) s2) :
    s1 = s2 := by
  rcases mem_scanBucket_iff.mp h1 with ⟨f1, hw1, _, hs1, he1⟩
  rcases mem_scanBucket_iff.mp h2 with ⟨f2, hw2, _, hs2, he2⟩
  have heq := path_injOn hnd f1 hw1 f2 hw2 (he1.trans he2.symm)
  rw [← hs1, ← hs2, heq]

/-! ## Candidate paths -/

theorem foldr_append_eq_flatten {α β : Type} (l : List (α × List β)) :
    l.foldr (fun g a => g.2 ++ a) [] = (l.map Prod.snd).flatten := by
  induction l with
  | nil => rfl
  | cons g rest ih => rw [List.foldr_cons, ih, List.map_cons, List.flatten_cons]

theorem mem_allCandidatePaths_iff {fs : FS} {directory : String}
    {extensions : List String} {min_size : Nat} {max_size : Option Nat}
    {p : String} :
    p ∈ allCandidatePaths fs directory extensions min_size max_size
      ↔ ∃ s, 1 < (lookupG (scan_directory fs directory extensions min_size max_size) s).length
          ∧ p ∈ lookupG (scan_directory fs directory extensions min_size max_size) s := by
  unfold allCandidatePaths candidateGroups
  rw [foldr_append_eq_flatten]
  constructor
  · intro hp
    rcases List.mem_flatten.mp hp with ⟨l, hl, hpl⟩
    rcases List.mem_map.mp hl with ⟨g, hg, he⟩
    have hgf := List.mem_filter.mp hg
    have hlook : lookupG (scan_directory fs directory extensions min_size max_size) g.1 = g.2 :=
      lookupG_of_mem_keysNodup (keysNodup_scan fs directory extensions min_size max_size)
        (by rw [show ((g.1, g.2) : Nat × List String) = g from rfl]; exact hgf.1)
    refine ⟨g.1, ?_, ?_⟩
    · rw [hlook]; simpa using hgf.2
    · rw [hlook, he]; exact hpl
  · rintro ⟨s, hlen, hp⟩
    have hne : lookupG (scan_directory fs directory extensions min_size max_size) s ≠ [] := by
      intro he; rw [he] at hlen; simp at hlen
    have hmem := lookupG_mem hne
    refine List.mem_flatten.mpr
      ⟨lookupG (scan_directory fs directory extensions min_size max_size) s, ?_, hp⟩
    refine List.mem_map.mpr
      ⟨(s, lookupG (scan_directory fs directory extensions min_size max_size) s), ?_, rfl⟩
    exact List.mem_filter.mpr ⟨hmem, by simpa using hlen⟩

theorem allCandidatePaths_nodup {fs : FS} {directory : String}
    {extensions : List String} {min_size : Nat} {max_size : Option Nat}
    (hnd : ((walkFiles fs directory).map FSFile.path).Nodup) :
    (allCandidatePaths fs directory extensions min_size max_size).Nodup := by
  unfold allCandidatePaths
  rw [foldr_append_eq_flatten]
  rw [List.nodup_flatten]
  constructor
  · intro l hl
    rcases List.mem_map.mp hl with ⟨g, hg, he⟩
    have hgf := List.mem_filter.mp hg
    have hlook : lookupG (scan_directory fs directory extensions min_size max_size) g.1 = g.2 :=
      lookupG_of_mem_keysNodup (keysNodup_scan fs directory extensions min_size max_size)
        (by rw [show ((g.1, g.2) : Nat × List String) = g from rfl]; exact hgf.1)
    rw [← he, ← hlook]
    exact scanBucket_nodup hnd
  · rw [List.pairwise_map]
    have hkeys : ((candidateGroups fs directory extensions min_size max_size).map Prod.fst).Nodup := by
      refine List.Nodup.sublist ?_ (keysNodup_scan fs directory extensions min_size max_size)
      exact List.Sublist.map Prod.fst (List.filter_sublist _)
    have hpair : (candidateGroups fs directory extensions min_size max_size).Pairwise
        (fun a b => a.1 ≠ b.1) := List.pairwise_map.mp hkeys
    refine hpair.imp_of_mem ?_
    intro a b ha hb hne
    intro p hpa hpb
    have hla : lookupG (scan_directory fs directory extensions min_size max_size) a.1 = a.2 :=
      lookupG_of_mem_keysNodup (keysNodup_scan fs directory extensions min_size max_size)
        (by rw [show ((a.1, a.2) : Nat × List String) = a from rfl]
            exact (List.mem_filter.mp ha).1)
    have hlb : lookupG (scan_directory fs directory extensions min_size max_size) b.1 = b.2 :=
      lookupG_of_mem_keysNodup (keysNodup_scan fs directory extensions min_size max_size)
        (by rw [show ((b.1, b.2) : Nat × List String) = b from rfl]
            exact (List.mem_filter.mp hb).1)
    exact hne (scanBucket_size_unique hnd (hla.symm ▸ hpa) (hlb.symm ▸ hpb))

/-! ## Small helpers for the claims -/

theorem filter_ne_length {l : List String} {a : String} (hnd : l.Nodup)
    (ha : a ∈ l) : (l.filter (fun p => ¬ p = a)).length = l.length - 1 := by
  induction l with
  | nil => cases ha
  | cons x t ih =>
    rw [List.nodup_cons] at hnd
    rcases List.mem_cons.mp ha with e | m
    · subst e
      rw [List.filter_cons, if_neg (by simp)]
      rw [List.filter_eq_self.mpr ?_]
      · simp
      · intro p hp
        simp only [decide_eq_true_eq]
        intro he
        exact hnd.1 (he ▸ hp)
    · have hxa : ¬ x = a := by
        intro he
        exact hnd.1 (he ▸ m)
      rw [List.filter_cons, if_pos (by simpa using hxa)]
      simp only [List.length_cons]
      rw [ih hnd.2 m]
      have : 0 < t.length := List.length_pos.mpr (List.ne_nil_of_mem m)
      omega

theorem one_lt_length_of_two_mem {l : List String} {p q : String}
    (hp : p ∈ l) (hq : q ∈ l) (hne : p ≠ q) : 1 < l.length := by
  cases l with
  | nil => cases hp
  | cons a t =>
    cases t with
    | nil =>
      rw [List.mem_singleton] at hp hq
      exact absurd (hp.trans hq.symm) hne
    | cons b t2 =>
      simp only [List.length_cons]
      omega

theorem calc_some_elim {H : Type} {hashFn : List Nat → H} {chunk_size : Nat}
    {fs : FS} {p : String} {h : H}
    (hc : calculate_file_hash hashFn chunk_size fs p = some h) :
    ∃ f, lookupFile fs p = some f ∧ f.readable = true
      ∧ hashFn (readAll f.content chunk_size) = h := by
  unfold calculate_file_hash at hc
  cases hl : lookupFile fs p with
  | none => rw [hl] at hc; cases hc
  | some f =>
    rw [hl] at hc
    have hc2 : (if f.readable = true
        then some (hashFn (readAll f.content chunk_size)) else none) = some h := hc
    by_cases hr : f.readable
    · rw [if_pos hr] at hc2
      exact ⟨f, rfl, hr, Option.some.inj hc2⟩
    · rw [if_neg hr] at hc2; cases hc2

theorem calc_of_unreadable {H : Type} (hashFn : List Nat → H) (chunk_size : Nat)
    {fs : FS} {p : String} {f : FSFile} (hl : lookupFile fs p = some f)
    (hr : f.readable = false) :
    calculate_file_hash hashFn chunk_size fs p = none := by
  unfold calculate_file_hash
  rw [hl]
  show (if f.readable = true
      then some (hashFn (readAll f.content chunk_size)) else none) = none
  rw [hr]
  simp

theorem hashFold_const {H : Type} [DecidableEq H] (hashFn : List Nat → H)
    (chunk_size : Nat) (fs : FS) (h0 : H) :
    ∀ (ps : List String) (acc : List String),
    (∀ p ∈ ps, calculate_file_hash hashFn chunk_size fs p = some h0) →
    ps.foldl (hashStep hashFn chunk_size fs) [(h0, acc)] = [(h0, acc ++ ps)] := by
  intro ps
  induction ps with
  | nil => intro acc _; simp
  | cons p ps ih =>
    intro acc hall
    rw [List.foldl_cons]
    rw [show hashStep hashFn chunk_size fs [(h0, acc)] p = [(h0, acc ++ [p])] from by
      unfold hashStep
      rw [hall p (List.mem_cons_self _ _)]
      simp [updateMulti]]
    rw [ih (acc ++ [p]) (fun q hq => hall q (List.mem_cons_of_mem _ hq))]
    simp

theorem find_duplicates_walk_nil {H : Type} [DecidableEq H]
    (hashFn : List Nat → H) (chunk_size : Nat) (fs : FS) (directory : String)
    (extensions : List String) (min_size : Nat) (max_size : Option Nat)
    (hw : walkFiles fs directory = []) :
    find_duplicates hashFn chunk_size fs directory extensions min_size max_size = [] := by
  rw [find_duplicates_eq]
  unfold candidateGroups scan_directory
  rw [hw]
  rfl

theorem passesFilters_iff (extensions : List String) (min_size : Nat)
    (max_size : Option Nat) (f : FSFile) :
    passesFilters extensions min_size max_size f = true
      ↔ (extensions ≠ [] → (fileExtension f.name).toLower ∈ extensions)
        ∧ min_size ≤ f.size
        ∧ (∀ m, max_size = some m → m ≠ 0 → f.size ≤ m) := by
  unfold passesFilters
  constructor
  · intro h
    by_cases h1 : (!extensions.isEmpty
        && !((fileExtension f.name).toLower ∈ extensions : Bool)) = true
    · rw [if_pos h1] at h; cases h
    · rw [if_neg h1] at h
      by_cases h2 : f.size < min_size
      · rw [if_pos h2] at h; cases h
      · rw [if_neg h2] at h
        by_cases h3 : maxExcludes max_size f.size = true
        · rw [if_pos h3] at h; cases h
        · refine ⟨?_, by omega, ?_⟩
          · intro hne
            simp only [Bool.and_eq_true, Bool.not_eq_true', List.isEmpty_iff,
              decide_eq_false_iff_not, not_and, not_not] at h1
            have := h1 (by simpa [List.isEmpty_iff] using hne)
            simpa using this
          · intro m hm hm0
            rw [hm] at h3
            simp only [maxExcludes, Bool.and_eq_true, decide_eq_true_eq, not_and] at h3
            omega
  · rintro ⟨hext, hmin, hmax⟩
    have h1 : ¬ ((!extensions.isEmpty
        && !((fileExtension f.name).toLower ∈ extensions : Bool)) = true) := by
      simp only [Bool.and_eq_true, Bool.not_eq_true', List.isEmpty_iff,
        decide_eq_false_iff_not, not_and, not_not]
      intro hne
      simpa using hext (by simpa [List.isEmpty_iff] using hne)
    rw [if_neg h1, if_neg (by omega)]
    have h3 : ¬ (maxExcludes max_size f.size = true) := by
      cases max_size with
      | none => simp [maxExcludes]
      | some m =>
        simp only [maxExcludes, Bool.and_eq_true, decide_eq_true_eq, not_and]
        intro hm0
        have := hmax m rfl hm0
        omega
    rw [if_neg h3]

/-! ## markReadable invariance -/

theorem markFile_path (u : String) (f : FSFile) : (markFile u f).path = f.path := by
  unfold markFile
  split <;> rfl

theorem markFile_name (u : String) (f : FSFile) : (markFile u f).name = f.name := by
  unfold markFile
  split <;> rfl

theorem markFile_size (u : String) (f : FSFile) : (markFile u f).size = f.size := by
  unfold markFile FSFile.size
  split <;> rfl

theorem markFile_passes (extensions : List String) (min_size : Nat)
    (max_size : Option Nat) (u : String) (f : FSFile) :
    passesFilters extensions min_size max_size (markFile u f)
      = passesFilters extensions min_size max_size f := by
  unfold passesFilters
  rw [markFile_name, markFile_size]

theorem walkFiles_markReadable (fs : FS) (u dir : String) :
    walkFiles (markReadable fs u) dir = (walkFiles fs dir).map (markFile u) := by
  unfold walkFiles markReadable
  by_cases h : dir ∈ fs.dirs
  · rw [if_pos h, if_pos h]
  · rw [if_neg h, if_neg h]
    rfl

theorem scan_markReadable (fs : FS) (u dir : String) (extensions : List String)
    (min_size : Nat) (max_size : Option Nat) :
    scan_directory (markReadable fs u) dir extensions min_size max_size
      = scan_directory fs dir extensions min_size max_size := by
  unfold scan_directory
  rw [walkFiles_markReadable, List.foldl_map]
  congr 1
  funext groups f
  rw [markFile_passes, markFile_size, markFile_path]

theorem allCandidatePaths_markReadable (fs : FS) (u dir : String)
    (extensions : List String) (min_size : Nat) (max_size : Option Nat) :
    allCandidatePaths (markReadable fs u) dir extensions min_size max_size
      = allCandidatePaths fs dir extensions min_size max_size := by
  unfold allCandidatePaths candidateGroups
  rw [scan_markReadable]

theorem find?_map_markFile (u p : String) (hne : p ≠ u) : ∀ (l : List FSFile),
    (l.map (markFile u)).find? (fun f => f.path = p)
      = l.find? (fun f => f.path = p) := by
  intro l
  induction l with
  | nil => rfl
  | cons a t ih =>
    rw [List.map_cons]
    by_cases hp : a.path = p
    · rw [List.find?_cons_of_pos _ (by simp [markFile_path, hp]),
        List.find?_cons_of_pos _ (by simpa using hp)]
      have hma : markFile u a = a := by
        unfold markFile
        rw [if_neg (by rw [hp]; exact hne)]
      rw [hma]
    · rw [List.find?_cons_of_neg _ (by simp [markFile_path, hp]),
        List.find?_cons_of_neg _ (by simpa using hp)]
      exact ih

theorem lookupFile_markReadable (fs : FS) (u p : String) (hne : p ≠ u) :
    lookupFile (markReadable fs u) p = lookupFile fs p := by
  unfold lookupFile markReadable
  exact find?_map_markFile u p hne fs.files

theorem calc_markReadable {H : Type} (hashFn : List Nat → H) (chunk_size : Nat)
    (fs : FS) (u p : String) (hne : p ≠ u) :
    calculate_file_hash hashFn chunk_size (markReadable fs u) p
      = calculate_file_hash hashFn chunk_size fs p := by
  unfold calculate_file_hash
  rw [lookupFile_markReadable fs u p hne]

/-! ## Claims -/

/-- C1: for every duplicate group of at least two distinct file paths and
every keep-policy, `delete_duplicates` designates exactly one member as the
kept file and the remaining N-1 members as deletion candidates: the kept
file is a group member, it is not among the candidates, there are exactly
N-1 candidates, and kept file plus candidates together are exactly the
original group. -/
theorem C1_group_partition {H : Type} (fs : FS) (hval : H) (files : List String)
    (keep_strategy : String) (hnd : files.Nodup) (hlen : 2 ≤ files.length) :
    keptFile fs keep_strategy files ∈ files
    ∧ keptFile fs keep_strategy files
        ∉ (delete_duplicates [(hval, files)] keep_strategy true fs).1
    ∧ (delete_duplicates [(hval, files)] keep_strategy true fs).1.length
        = files.length - 1
    ∧ ∀ p, p ∈ files ↔ p = keptFile fs keep_strategy files
        ∨ p ∈ (delete_duplicates [(hval, files)] keep_strategy true fs).1 := by
  have hne : files ≠ [] := by
    intro he
    rw [he] at hlen
    simp at hlen
  have hkeep : keptFile fs keep_strategy files ∈ files :=
    resolveGroup_keep_mem _ _ _ hne
  have hplan : (delete_duplicates [(hval, files)] keep_strategy true fs).1
      = plannedDeletes fs keep_strategy files := by
    rw [delete_duplicates_dry]
    unfold deletionPlan
    rw [List.foldr_cons, List.foldr_nil,
      if_neg (show ¬ files.length ≤ 1 by omega), List.append_nil]
  have hperm : (plannedDeletes fs keep_strategy files).Perm
      (files.filter (fun p => ¬ p = keptFile fs keep_strategy files)) := by
    unfold plannedDeletes
    exact (resolveGroup_fst_perm (ctimeOf fs) keep_strategy files).filter _
  refine ⟨hkeep, ?_, ?_, ?_⟩
  · rw [hplan]
    intro hmem
    unfold plannedDeletes at hmem
    have := (List.mem_filter.mp hmem).2
    simp at this
  · rw [hplan, hperm.length_eq]
    exact filter_ne_length hnd hkeep
  · intro p
    rw [hplan]
    constructor
    · intro hp
      by_cases he : p = keptFile fs keep_strategy files
      · exact Or.inl he
      · refine Or.inr (hperm.mem_iff.mpr ?_)
        exact List.mem_filter.mpr ⟨hp, by simpa using he⟩
    · rintro (he | hp)
      · exact he ▸ hkeep
      · exact (List.mem_filter.mp (hperm.mem_iff.mp hp)).1

theorem C1_group_partition_witness :
    (["a", "b", "c"] : List String).Nodup
    ∧ 2 ≤ (["a", "b", "c"] : List String).length
    ∧ (keptFile ⟨[], []⟩ "oldest" ["a", "b", "c"] ∈ (["a", "b", "c"] : List String)
      ∧ keptFile ⟨[], []⟩ "oldest" ["a", "b", "c"]
          ∉ (delete_duplicates [(([] : List Nat), ["a", "b", "c"])] "oldest" true ⟨[], []⟩).1
      ∧ (delete_duplicates [(([] : List Nat), ["a", "b", "c"])] "oldest" true ⟨[], []⟩).1.length
          = (["a", "b", "c"] : List String).length - 1
      ∧ ∀ p, p ∈ (["a", "b", "c"] : List String)
          ↔ p = keptFile ⟨[], []⟩ "oldest" ["a", "b", "c"]
            ∨ p ∈ (delete_duplicates [(([] : List Nat), ["a", "b", "c"])] "oldest" true ⟨[], []⟩).1) :=
  ⟨by decide, by decide,
    C1_group_partition ⟨[], []⟩ ([] : List Nat) ["a", "b", "c"] "oldest"
      (by decide) (by decide)⟩

/-- C2: for every duplicates mapping and keep-policy, a dry run of
`delete_duplicates` leaves the snapshot untouched and returns exactly the
files that would be deleted: the members of every group of more than one
file other than that group's kept file. -/
theorem C2_dry_run_non_mutation {H : Type} (fs : FS)
    (dups : List (H × List String)) (keep_strategy : String) :
    (delete_duplicates dups keep_strategy true fs).2 = fs
    ∧ ∀ p, p ∈ (delete_duplicates dups keep_strategy true fs).1
        ↔ ∃ g ∈ dups, 1 < g.2.length ∧ p ∈ g.2
            ∧ p ≠ keptFile fs keep_strategy g.2 := by
  rw [delete_duplicates_dry]
  exact ⟨rfl, fun p => mem_deletionPlan_iff fs keep_strategy dups p⟩

/-- C10: for every keep-strategy string other than the three known ones,
`delete_duplicates` raises no error and falls back to keeping the first
file of the group in its current order, marking all other members for
deletion. -/
theorem C10_unknown_strategy_keeps_first {H : Type} (fs : FS) (hval : H)
    (x : String) (xs : List String) (keep_strategy : String)
    (h1 : keep_strategy ≠ "oldest") (h2 : keep_strategy ≠ "newest")
    (h3 : keep_strategy ≠ "smallest_path") :
    keptFile fs keep_strategy (x :: xs) = x
    ∧ delete_duplicates [(hval, x :: xs)] keep_strategy true fs
        = ((x :: xs).filter (fun p => ¬ p = x), fs) := by
  have hres : resolveGroup (ctimeOf fs) keep_strategy (x :: xs) = (x :: xs, x) := by
    unfold resolveGroup
    rw [if_neg h1, if_neg h2, if_neg h3]
    rfl
  have hkeep : keptFile fs keep_strategy (x :: xs) = x := by
    unfold keptFile
    rw [hres]
  refine ⟨hkeep, ?_⟩
  rw [delete_duplicates_dry]
  by_cases hlen : (x :: xs).length ≤ 1
  · have hxs : xs = [] := by
      simp only [List.length_cons] at hlen
      exact List.length_eq_zero.mp (by omega)
    subst hxs
    unfold deletionPlan
    rw [List.foldr_cons, List.foldr_nil, if_pos (by simp)]
    simp
  · unfold deletionPlan
    rw [List.foldr_cons, List.foldr_nil, if_neg hlen, List.append_nil]
    unfold plannedDeletes keptFile
    rw [hres]

theorem C10_unknown_strategy_keeps_first_witness :
    ("first_seen" : String) ≠ "oldest" ∧ ("first_seen" : String) ≠ "newest"
    ∧ ("first_seen" : String) ≠ "smallest_path"
    ∧ (keptFile ⟨[], []⟩ "first_seen" ("b" :: ["a"]) = "b"
      ∧ delete_duplicates [(([] : List Nat), "b" :: ["a"])] "first_seen" true ⟨[], []⟩
          = (("b" :: ["a"]).filter (fun p => ¬ p = "b"), ⟨[], []⟩)) :=
  ⟨by decide, by decide, by decide,
    C10_unknown_strategy_keeps_first ⟨[], []⟩ ([] : List Nat) "b" ["a"] "first_seen"
      (by decide) (by decide) (by decide)⟩

/-- C5 counterexample: a root that exists as a regular file but is not a
directory is not rejected — `main` only tests `os.path.exists`, the walk of
a non-directory yields nothing, and the run completes with exit code 0. -/
theorem C5_non_directory_root_counterexample :
    pathExists ⟨[], [⟨"root", "root", [], 0, true⟩]⟩ "root" = true
    ∧ directoryExists ⟨[], [⟨"root", "root", [], 0, true⟩]⟩ "root" = false
    ∧ (mainRun (fun c => c) ⟨"root", true, false, false, [], 0, none, "oldest", 8192⟩
        ⟨[], [⟨"root", "root", [], 0, true⟩]⟩).1 = 0 :=
  ⟨by decide, by decide, by decide⟩

/-- C5 amended: only a root that does not exist at all is rejected — then
`main` exits with code 1 before any work (the snapshot is returned
untouched).  An existing root is never rejected, even when it is not a
directory, and such a run can finish with exit code 0. -/
theorem C5_missing_root_fails {H : Type} [DecidableEq H] (hashFn : List Nat → H)
    (args : Args) (fs : FS) (h : ¬ pathExists fs args.directory = true) :
    mainRun hashFn args fs = (1, fs) := by
  unfold mainRun
  rw [if_pos h]

theorem C5_missing_root_fails_witness :
    ¬ pathExists ⟨[], []⟩ "missing" = true
    ∧ mainRun (fun c => c)
        ⟨"missing", true, false, false, [], 0, none, "oldest", 8192⟩ ⟨[], []⟩
        = (1, (⟨[], []⟩ : FS)) :=
  ⟨by decide,
    C5_missing_root_fails (fun c => c)
      ⟨"missing", true, false, false, [], 0, none, "oldest", 8192⟩ ⟨[], []⟩ (by decide)⟩

/-- C6 counterexample: under `smallest_path` the tie between the equal
length paths "bb" and "aa" is NOT broken lexicographically — the code keeps
"bb", the first member in list order, although "aa" is the lexicographically
smaller of the tied paths. -/
theorem C6_lex_tiebreak_counterexample :
    keptFile ⟨[], []⟩ "smallest_path" ["bb", "aa"] = "bb"
    ∧ ("aa" : String).data < ("bb" : String).data
    ∧ ("aa" : String).length = ("bb" : String).length
    ∧ "aa" ∈ (["bb", "aa"] : List String) :=
  ⟨by decide, by decide, by decide, by decide⟩

/-- C6 amended: under `smallest_path` the kept file is a member with the
fewest characters, and ties are broken by the first position in the group's
list order (Python `min` keeps the first minimum), not lexicographically:
the kept file is the first member whose length is minimal. -/
theorem C6_smallest_path_first_minimal (fs : FS) (files : List String)
    (hne : files ≠ []) :
    keptFile fs "smallest_path" files ∈ files
    ∧ (∀ p ∈ files, (keptFile fs "smallest_path" files).length ≤ p.length)
    ∧ files.find? (fun p => p.length = (keptFile fs "smallest_path" files).length)
        = some (keptFile fs "smallest_path" files) := by
  cases files with
  | nil => exact absurd rfl hne
  | cons x xs =>
    have hk : keptFile fs "smallest_path" (x :: xs) = pyMinByLen x xs := by
      unfold keptFile resolveGroup
      rw [if_neg (by decide), if_neg (by decide), if_pos rfl]
    rw [hk]
    exact ⟨pyMinByLen_mem xs x, pyMinByLen_le xs x, pyMinByLen_find? xs x⟩

theorem C6_smallest_path_first_minimal_witness :
    (["bb", "aa", "cccc"] : List String) ≠ []
    ∧ (keptFile ⟨[], []⟩ "smallest_path" ["bb", "aa", "cccc"]
          ∈ (["bb", "aa", "cccc"] : List String)
      ∧ (∀ p ∈ (["bb", "aa", "cccc"] : List String),
          (keptFile ⟨[], []⟩ "smallest_path" ["bb", "aa", "cccc"]).length ≤ p.length)
      ∧ (["bb", "aa", "cccc"] : List String).find?
          (fun p => p.length
            = (keptFile ⟨[], []⟩ "smallest_path" ["bb", "aa", "cccc"]).length)
          = some (keptFile ⟨[], []⟩ "smallest_path" ["bb", "aa", "cccc"])) :=
  ⟨by decide,
    C6_smallest_path_first_minimal ⟨[], []⟩ ["bb", "aa", "cccc"] (by decide)⟩

/-- C7 counterexample: with `max_size = 0` the maximum bound is NOT
applied — `if max_size and file_size > max_size` is skipped because `0` is
falsy — so a five byte file is still placed in its size bucket although its
size exceeds the given maximum of 0. -/
theorem C7_max_size_zero_counterexample :
    "d/a.bin" ∈ lookupG (scan_directory
        ⟨["d"], [⟨"a.bin", "d/a.bin", [1, 2, 3, 4, 5], 0, true⟩]⟩
        "d" [] 0 (some 0)) 5
    ∧ ¬ ((5 : Nat) ≤ 0) :=
  ⟨by decide, by decide⟩

/-- C7 amended: a walked file that passes the extension filter is placed in
its size bucket if and only if `min_size ≤ size` (inclusive) and, whenever
`max_size` is given AND nonzero, `size ≤ max_size` (inclusive); a given
`max_size` of 0 is falsy in the guard `if max_size and file_size > max_size`
and imposes no bound. -/
theorem C7_size_bounds (fs : FS) (directory : String) (extensions : List String)
    (min_size : Nat) (max_size : Option Nat) (f : FSFile)
    (hnd : ((walkFiles fs directory).map FSFile.path).Nodup)
    (hw : f ∈ walkFiles fs directory)
    (hext : extensions ≠ [] → (fileExtension f.name).toLower ∈ extensions) :
    f.path ∈ lookupG (scan_directory fs directory extensions min_size max_size) f.size
      ↔ (min_size ≤ f.size ∧ ∀ m, max_size = some m → m ≠ 0 → f.size ≤ m) := by
  constructor
  · intro hp
    rcases mem_scanBucket_iff.mp hp with ⟨f2, hw2, hpass2, _, hpath2⟩
    have hf : f2 = f := path_injOn hnd f2 hw2 f hw hpath2
    subst hf
    have := (passesFilters_iff extensions min_size max_size f2).mp hpass2
    exact ⟨this.2.1, this.2.2⟩
  · rintro ⟨hmin, hmax⟩
    refine mem_scanBucket_iff.mpr ⟨f, hw, ?_, rfl, rfl⟩
    exact (passesFilters_iff extensions min_size max_size f).mpr ⟨hext, hmin, hmax⟩

theorem C7_size_bounds_witness :
    ((walkFiles ⟨["d"], [⟨"a.bin", "d/a.bin", [1, 2, 3], 0, true⟩]⟩ "d").map
        FSFile.path).Nodup
    ∧ (⟨"a.bin", "d/a.bin", [1, 2, 3], 0, true⟩ : FSFile)
        ∈ walkFiles ⟨["d"], [⟨"a.bin", "d/a.bin", [1, 2, 3], 0, true⟩]⟩ "d"
    ∧ (([] : List String) ≠ []
        → (fileExtension "a.bin").toLower ∈ ([] : List String))
    ∧ ((⟨"a.bin", "d/a.bin", [1, 2, 3], 0, true⟩ : FSFile).path
        ∈ lookupG (scan_directory ⟨["d"], [⟨"a.bin", "d/a.bin", [1, 2, 3], 0, true⟩]⟩
            "d" [] 2 (some 4))
          (⟨"a.bin", "d/a.bin", [1, 2, 3], 0, true⟩ : FSFile).size
      ↔ (2 ≤ (⟨"a.bin", "d/a.bin", [1, 2, 3], 0, true⟩ : FSFile).size
          ∧ ∀ m, (some 4 : Option Nat) = some m → m ≠ 0
            → (⟨"a.bin", "d/a.bin", [1, 2, 3], 0, true⟩ : FSFile).size ≤ m)) :=
  ⟨by decide, by decide, by decide,
    C7_size_bounds ⟨["d"], [⟨"a.bin", "d/a.bin", [1, 2, 3], 0, true⟩]⟩ "d" [] 2
      (some 4) ⟨"a.bin", "d/a.bin", [1, 2, 3], 0, true⟩
      (by decide) (by decide) (by decide)⟩

/-- C3: assuming the digest function is collision-free on the scanned
files, any two paths of one group returned by `find_duplicates` resolve to
files of exactly the same byte size (equal digests force equal contents and
hence equal lengths), even though `hash_groups` regroups globally by digest
alone. -/
theorem C3_same_group_same_size {H : Type} [DecidableEq H] (hashFn : List Nat → H)
    (chunk_size : Nat) (fs : FS) (directory : String) (extensions : List String)
    (min_size : Nat) (max_size : Option Nat) (h : H) (l : List String) (p q : String)
    (hcoll : ∀ f1 ∈ fs.files, ∀ f2 ∈ fs.files,
      hashFn (readAll f1.content chunk_size) = hashFn (readAll f2.content chunk_size)
      → f1.content = f2.content)
    (hm : (h, l) ∈ find_duplicates hashFn chunk_size fs directory extensions
      min_size max_size)
    (hp : p ∈ l) (hq : q ∈ l) :
    ∃ fp fq, lookupFile fs p = some fp ∧ lookupFile fs q = some fq
      ∧ fp.size = fq.size := by
  have hch := (mem_find_duplicates_iff.mp hm).1
  rw [hch] at hp hq
  unfold groupPathsOf at hp hq
  have hcp : calculate_file_hash hashFn chunk_size fs p = some h := by
    have := (List.mem_filter.mp hp).2
    simpa using this
  have hcq : calculate_file_hash hashFn chunk_size fs q = some h := by
    have := (List.mem_filter.mp hq).2
    simpa using this
  rcases calc_some_elim hcp with ⟨fp, hlp, _, hhp⟩
  rcases calc_some_elim hcq with ⟨fq, hlq, _, hhq⟩
  have hlp2 : fs.files.find? (fun f => f.path = p) = some fp := hlp
  have hlq2 : fs.files.find? (fun f => f.path = q) = some fq := hlq
  have hmp : fp ∈ fs.files := List.mem_of_find?_eq_some hlp2
  have hmq : fq ∈ fs.files := List.mem_of_find?_eq_some hlq2
  have hceq : fp.content = fq.content := hcoll fp hmp fq hmq (by rw [hhp, hhq])
  refine ⟨fp, fq, hlp, hlq, ?_⟩
  unfold FSFile.size
  rw [hceq]

theorem C3_same_group_same_size_witness :
    (∀ f1 ∈ (⟨["d"], [⟨"a", "d/a", [7], 0, true⟩, ⟨"b", "d/b", [7], 1, true⟩]⟩ : FS).files,
      ∀ f2 ∈ (⟨["d"], [⟨"a", "d/a", [7], 0, true⟩, ⟨"b", "d/b", [7], 1, true⟩]⟩ : FS).files,
      (fun c => c) (readAll f1.content 8192) = (fun c => c) (readAll f2.content 8192)
      → f1.content = f2.content)
    ∧ (([7], ["d/a", "d/b"]) ∈ find_duplicates (fun c => c) 8192
        ⟨["d"], [⟨"a", "d/a", [7], 0, true⟩, ⟨"b", "d/b", [7], 1, true⟩]⟩ "d" [] 0 none)
    ∧ "d/a" ∈ (["d/a", "d/b"] : List String)
    ∧ "d/b" ∈ (["d/a", "d/b"] : List String)
    ∧ ∃ fp fq,
        lookupFile ⟨["d"], [⟨"a", "d/a", [7], 0, true⟩, ⟨"b", "d/b", [7], 1, true⟩]⟩ "d/a"
          = some fp
        ∧ lookupFile ⟨["d"], [⟨"a", "d/a", [7], 0, true⟩, ⟨"b", "d/b", [7], 1, true⟩]⟩ "d/b"
          = some fq
        ∧ fp.size = fq.size :=
  ⟨by decide, by decide, by decide, by decide,
    C3_same_group_same_size (fun c => c) 8192
      ⟨["d"], [⟨"a", "d/a", [7], 0, true⟩, ⟨"b", "d/b", [7], 1, true⟩]⟩ "d" [] 0 none
      [7] ["d/a", "d/b"] "d/a" "d/b" (by decide) (by decide) (by decide) (by decide)⟩

/-- C9: with `chunk_size = 0` the read loop exits immediately, so every
readable file hashes to the digest of the empty byte string; consequently
`find_duplicates` lumps ALL candidate paths (all files of every surviving
size bucket) into the single digest group of `hashFn []`, even when their
contents differ. -/
theorem C9_zero_chunk_collapses {H : Type} [DecidableEq H] (hashFn : List Nat → H)
    (fs : FS) (directory : String) (extensions : List String)
    (min_size : Nat) (max_size : Option Nat)
    (hread : ∀ f ∈ fs.files, f.readable = true)
    (hcand : 2 ≤ (allCandidatePaths fs directory extensions min_size max_size).length) :
    (∀ p f, lookupFile fs p = some f
      → calculate_file_hash hashFn 0 fs p = some (hashFn []))
    ∧ find_duplicates hashFn 0 fs directory extensions min_size max_size
        = [(hashFn [], allCandidatePaths fs directory extensions min_size max_size)] := by
  have hcalc : ∀ p f, lookupFile fs p = some f
      → calculate_file_hash hashFn 0 fs p = some (hashFn []) := by
    intro p f hl
    unfold calculate_file_hash
    rw [hl]
    show (if f.readable = true then some (hashFn (readAll f.content 0)) else none) = _
    have hfm : f ∈ fs.files :=
      List.mem_of_find?_eq_some (show fs.files.find? (fun g => g.path = p) = some f from hl)
    rw [if_pos (hread f hfm), readAll_zero]
  refine ⟨hcalc, ?_⟩
  have hall : ∀ p ∈ allCandidatePaths fs directory extensions min_size max_size,
      calculate_file_hash hashFn 0 fs p = some (hashFn []) := by
    intro p hp
    rcases mem_allCandidatePaths_iff.mp hp with ⟨s, _, hps⟩
    rcases mem_scanBucket_iff.mp hps with ⟨f, hfw, _, _, hfpath⟩
    have hfm : f ∈ fs.files := by
      unfold walkFiles at hfw
      by_cases hd : directory ∈ fs.dirs
      · rwa [if_pos hd] at hfw
      · rw [if_neg hd] at hfw
        cases hfw
    cases hl : lookupFile fs p with
    | some f2 => exact hcalc p f2 hl
    | none =>
      exfalso
      have hnone := List.find?_eq_none.mp
        (show fs.files.find? (fun g => g.path = p) = none from hl) f hfm
      simp [hfpath] at hnone
  rw [find_duplicates_eq]
  have hflat : hashGroupsOf hashFn 0 fs
      (candidateGroups fs directory extensions min_size max_size)
      = (allCandidatePaths fs directory extensions min_size max_size).foldl
          (hashStep hashFn 0 fs) [] := by
    unfold hashGroupsOf allCandidatePaths
    rw [hashFold_flat]
  rw [hflat]
  cases hcp : allCandidatePaths fs directory extensions min_size max_size with
  | nil =>
    rw [hcp] at hcand
    simp at hcand
  | cons p ps =>
    rw [hcp] at hall hcand
    rw [List.foldl_cons]
    rw [show hashStep hashFn 0 fs [] p = [(hashFn [], [p])] from by
      unfold hashStep
      rw [hall p (List.mem_cons_self _ _)]
      rfl]
    rw [hashFold_const hashFn 0 fs (hashFn []) ps [p]
      (fun r hr => hall r (List.mem_cons_of_mem _ hr))]
    rw [List.filter_cons]
    rw [if_pos (by
      simp only [List.length_cons, List.singleton_append, decide_eq_true_eq]
      simp only [List.length_cons] at hcand
      omega)]
    simp

theorem C9_zero_chunk_collapses_witness :
    (∀ f ∈ (⟨["d"], [⟨"a", "d/a", [1], 0, true⟩, ⟨"b", "d/b", [2], 1, true⟩]⟩ : FS).files,
      f.readable = true)
    ∧ 2 ≤ (allCandidatePaths
        ⟨["d"], [⟨"a", "d/a", [1], 0, true⟩, ⟨"b", "d/b", [2], 1, true⟩]⟩ "d" [] 0 none).length
    ∧ ((∀ p f, lookupFile
          ⟨["d"], [⟨"a", "d/a", [1], 0, true⟩, ⟨"b", "d/b", [2], 1, true⟩]⟩ p = some f
        → calculate_file_hash (fun c => c) 0
            ⟨["d"], [⟨"a", "d/a", [1], 0, true⟩, ⟨"b", "d/b", [2], 1, true⟩]⟩ p
            = some ((fun c => c) []))
      ∧ find_duplicates (fun c => c) 0
          ⟨["d"], [⟨"a", "d/a", [1], 0, true⟩, ⟨"b", "d/b", [2], 1, true⟩]⟩ "d" [] 0 none
          = [((fun c => c) [], allCandidatePaths
              ⟨["d"], [⟨"a", "d/a", [1], 0, true⟩, ⟨"b", "d/b", [2], 1, true⟩]⟩ "d" [] 0 none)]) :=
  ⟨by decide, by decide,
    C9_zero_chunk_collapses (fun c => c)
      ⟨["d"], [⟨"a", "d/a", [1], 0, true⟩, ⟨"b", "d/b", [2], 1, true⟩]⟩ "d" [] 0 none
      (by decide) (by decide)⟩

/-- C8: when hashing one file fails (here: the file at path `u` is
unreadable, so `calculate_file_hash` returns `None`), `find_duplicates`
excludes that file from every digest group, and the grouping of the other
files is unchanged: two other distinct paths share a returned group exactly
when they would share one in the run where that file's read succeeds.  The
run never aborts — it still returns a full grouping of the remaining
files. -/
theorem C8_unreadable_file_excluded {H : Type} [DecidableEq H]
    (hashFn : List Nat → H) (chunk_size : Nat) (fs : FS) (directory : String)
    (extensions : List String) (min_size : Nat) (max_size : Option Nat)
    (u : String) (uf : FSFile)
    (hul : lookupFile fs u = some uf) (hur : uf.readable = false) :
    (∀ h l, (h, l) ∈ find_duplicates hashFn chunk_size fs directory extensions
        min_size max_size → u ∉ l)
    ∧ (∀ p q, p ≠ u → q ≠ u → p ≠ q →
      ((∃ h l, (h, l) ∈ find_duplicates hashFn chunk_size fs directory
          extensions min_size max_size ∧ p ∈ l ∧ q ∈ l)
        ↔ (∃ h l, (h, l) ∈ find_duplicates hashFn chunk_size (markReadable fs u)
            directory extensions min_size max_size ∧ p ∈ l ∧ q ∈ l))) := by
  have hcu : calculate_file_hash hashFn chunk_size fs u = none :=
    calc_of_unreadable hashFn chunk_size hul hur
  constructor
  · intro h l hm hul2
    have hch := (mem_find_duplicates_iff.mp hm).1
    rw [hch] at hul2
    unfold groupPathsOf at hul2
    have := (List.mem_filter.mp hul2).2
    rw [hcu] at this
    simp at this
  · intro p q hpu hqu hpq
    constructor
    · rintro ⟨h, l, hm, hp, hq⟩
      have hch := (mem_find_duplicates_iff.mp hm).1
      rw [hch] at hp hq
      unfold groupPathsOf at hp hq
      have hpc := List.mem_filter.mp hp
      have hqc := List.mem_filter.mp hq
      have hc2p : calculate_file_hash hashFn chunk_size (markReadable fs u) p = some h := by
        rw [calc_markReadable hashFn chunk_size fs u p hpu]
        simpa using hpc.2
      have hc2q : calculate_file_hash hashFn chunk_size (markReadable fs u) q = some h := by
        rw [calc_markReadable hashFn chunk_size fs u q hqu]
        simpa using hqc.2
      have hpg : p ∈ groupPathsOf hashFn chunk_size (markReadable fs u) directory
          extensions min_size max_size h := by
        unfold groupPathsOf
        rw [allCandidatePaths_markReadable]
        exact List.mem_filter.mpr ⟨hpc.1, by simpa using hc2p⟩
      have hqg : q ∈ groupPathsOf hashFn chunk_size (markReadable fs u) directory
          extensions min_size max_size h := by
        unfold groupPathsOf
        rw [allCandidatePaths_markReadable]
        exact List.mem_filter.mpr ⟨hqc.1, by simpa using hc2q⟩
      exact ⟨h, groupPathsOf hashFn chunk_size (markReadable fs u) directory
          extensions min_size max_size h,
        mem_find_duplicates_iff.mpr ⟨rfl, one_lt_length_of_two_mem hpg hqg hpq⟩,
        hpg, hqg⟩
    · rintro ⟨h, l, hm, hp, hq⟩
      have hch := (mem_find_duplicates_iff.mp hm).1
      rw [hch] at hp hq
      unfold groupPathsOf at hp hq
      have hpc := List.mem_filter.mp hp
      have hqc := List.mem_filter.mp hq
      have hpA : p ∈ allCandidatePaths fs directory extensions min_size max_size := by
        rw [← allCandidatePaths_markReadable fs u]
        exact hpc.1
      have hqA : q ∈ allCandidatePaths fs directory extensions min_size max_size := by
        rw [← allCandidatePaths_markReadable fs u]
        exact hqc.1
      have hc1p : calculate_file_hash hashFn chunk_size fs p = some h := by
        rw [← calc_markReadable hashFn chunk_size fs u p hpu]
        simpa using hpc.2
      have hc1q : calculate_file_hash hashFn chunk_size fs q = some h := by
        rw [← calc_markReadable hashFn chunk_size fs u q hqu]
        simpa using hqc.2
      have hpg : p ∈ groupPathsOf hashFn chunk_size fs directory
          extensions min_size max_size h := by
        unfold groupPathsOf
        exact List.mem_filter.mpr ⟨hpA, by simpa using hc1p⟩
      have hqg : q ∈ groupPathsOf hashFn chunk_size fs directory
          extensions min_size max_size h := by
        unfold groupPathsOf
        exact List.mem_filter.mpr ⟨hqA, by simpa using hc1q⟩
      exact ⟨h, groupPathsOf hashFn chunk_size fs directory extensions
          min_size max_size h,
        mem_find_duplicates_iff.mpr ⟨rfl, one_lt_length_of_two_mem hpg hqg hpq⟩,
        hpg, hqg⟩

theorem C8_unreadable_file_excluded_witness :
    lookupFile ⟨["d"], [⟨"a", "d/a", [7], 0, true⟩, ⟨"b", "d/b", [7], 1, true⟩,
        ⟨"u", "d/u", [7], 2, false⟩]⟩ "d/u" = some ⟨"u", "d/u", [7], 2, false⟩
    ∧ (⟨"u", "d/u", [7], 2, false⟩ : FSFile).readable = false
    ∧ ((∀ h l, (h, l) ∈ find_duplicates (fun c => c) 8192
          ⟨["d"], [⟨"a", "d/a", [7], 0, true⟩, ⟨"b", "d/b", [7], 1, true⟩,
            ⟨"u", "d/u", [7], 2, false⟩]⟩ "d" [] 0 none → "d/u" ∉ l)
      ∧ (∀ p q, p ≠ "d/u" → q ≠ "d/u" → p ≠ q →
        ((∃ h l, (h, l) ∈ find_duplicates (fun c => c) 8192
            ⟨["d"], [⟨"a", "d/a", [7], 0, true⟩, ⟨"b", "d/b", [7], 1, true⟩,
              ⟨"u", "d/u", [7], 2, false⟩]⟩ "d" [] 0 none ∧ p ∈ l ∧ q ∈ l)
          ↔ (∃ h l, (h, l) ∈ find_duplicates (fun c => c) 8192
              (markReadable ⟨["d"], [⟨"a", "d/a", [7], 0, true⟩,
                ⟨"b", "d/b", [7], 1, true⟩, ⟨"u", "d/u", [7], 2, false⟩]⟩ "d/u")
              "d" [] 0 none ∧ p ∈ l ∧ q ∈ l)))) :=
  ⟨by decide, by decide,
    C8_unreadable_file_excluded (fun c => c) 8192
      ⟨["d"], [⟨"a", "d/a", [7], 0, true⟩, ⟨"b", "d/b", [7], 1, true⟩,
        ⟨"u", "d/u", [7], 2, false⟩]⟩ "d" [] 0 none "d/u"
      ⟨"u", "d/u", [7], 2, false⟩ (by decide) (by decide)⟩

/-- C4: running the pipeline once in execute mode (all deletions succeed on
a snapshot whose paths are distinct) and re-running `find_duplicates` on
the resulting snapshot with the same filters and hash function returns an
empty duplicates mapping: at most one file of each processed group
survives, so no digest group can keep two members. -/
theorem C4_rescan_after_execute_empty {H : Type} [DecidableEq H]
    (hashFn : List Nat → H) (chunk_size : Nat) (fs : FS) (directory : String)
    (extensions : List String) (min_size : Nat) (max_size : Option Nat)
    (keep_strategy : String)
    (hnd : (fs.files.map FSFile.path).Nodup) :
    find_duplicates hashFn chunk_size
      (delete_duplicates
        (find_duplicates hashFn chunk_size fs directory extensions min_size max_size)
        keep_strategy false fs).2
      directory extensions min_size max_size = [] := by
  set dups := find_duplicates hashFn chunk_size fs directory extensions
    min_size max_size with hdups
  set fs2 := (delete_duplicates dups keep_strategy false fs).2 with hfs2def
  have hfs2 : fs2 = delFoldFS keep_strategy false dups fs :=
    delete_duplicates_snd dups keep_strategy false fs
  have hdirs : fs2.dirs = fs.dirs := by
    rw [hfs2]
    exact delFoldFS_exec_dirs keep_strategy dups fs
  have hsub : fs2.files.Sublist fs.files := by
    rw [hfs2]
    exact delFoldFS_exec_sublist keep_strategy dups fs
  by_cases hdir : directory ∈ fs.dirs
  · have hwalk2 : walkFiles fs2 directory = fs2.files := by
      unfold walkFiles
      rw [if_pos (show directory ∈ fs2.dirs from by rw [hdirs]; exact hdir)]
    have hwalk1 : walkFiles fs directory = fs.files := by
      unfold walkFiles
      rw [if_pos hdir]
    rw [List.eq_nil_iff_forall_not_mem]
    intro g hg
    obtain ⟨h, l⟩ := g
    have hiff := mem_find_duplicates_iff.mp hg
    have hlen := hiff.2
    have hndw2 : ((walkFiles fs2 directory).map FSFile.path).Nodup := by
      rw [hwalk2]
      exact List.Nodup.sublist (hsub.map FSFile.path) hnd
    have hlnd : l.Nodup := by
      rw [hiff.1]
      unfold groupPathsOf
      exact (allCandidatePaths_nodup hndw2).filter _
    obtain ⟨p, q, hp, hq, hpq⟩ : ∃ p q, p ∈ l ∧ q ∈ l ∧ p ≠ q := by
      cases l with
      | nil => simp at hlen
      | cons a t =>
        cases t with
        | nil => simp at hlen
        | cons b t2 =>
          refine ⟨a, b, List.mem_cons_self _ _,
            List.mem_cons_of_mem _ (List.mem_cons_self _ _), ?_⟩
          intro he
          rw [List.nodup_cons] at hlnd
          exact hlnd.1 (he ▸ List.mem_cons_self b t2)
    rw [hiff.1] at hp hq
    unfold groupPathsOf at hp hq
    have hpc := List.mem_filter.mp hp
    have hqc := List.mem_filter.mp hq
    have key : ∀ r, r ∈ allCandidatePaths fs2 directory extensions min_size max_size →
        calculate_file_hash hashFn chunk_size fs2 r = some h →
        r ∈ allCandidatePaths fs directory extensions min_size max_size
        ∧ calculate_file_hash hashFn chunk_size fs r = some h
        ∧ pathInFS fs2 r = true := by
      intro r hr hcr
      rcases mem_allCandidatePaths_iff.mp hr with ⟨s, hslen, hrs⟩
      rcases mem_scanBucket_iff.mp hrs with ⟨f, hfw, hfpass, hfsize, hfpath⟩
      have hfm2 : f ∈ fs2.files := by rwa [hwalk2] at hfw
      have hbsub : (lookupG (scan_directory fs2 directory extensions min_size max_size) s).Sublist
          (lookupG (scan_directory fs directory extensions min_size max_size) s) := by
        rw [lookupG_scan, lookupG_scan]
        unfold filteredWalk
        rw [hwalk1, hwalk2]
        exact List.Sublist.map FSFile.path
          (List.Sublist.filter _ (List.Sublist.filter _ hsub))
      have hsA : r ∈ allCandidatePaths fs directory extensions min_size max_size :=
        mem_allCandidatePaths_iff.mpr
          ⟨s, lt_of_lt_of_le hslen hbsub.length_le, hbsub.subset hrs⟩
      have hceq : calculate_file_hash hashFn chunk_size fs2 f.path
          = calculate_file_hash hashFn chunk_size fs f.path :=
        calculate_file_hash_sub hashFn chunk_size hsub hnd hfm2
      have hcr1 : calculate_file_hash hashFn chunk_size fs r = some h := by
        rw [← hfpath] at hcr ⊢
        rw [← hceq]
        exact hcr
      exact ⟨hsA, hcr1, (pathInFS_iff fs2 r).mpr ⟨f, hfm2, hfpath⟩⟩
    have hkp := key p hpc.1 (by simpa using hpc.2)
    have hkq := key q hqc.1 (by simpa using hqc.2)
    have hpo : p ∈ groupPathsOf hashFn chunk_size fs directory extensions
        min_size max_size h := by
      unfold groupPathsOf
      exact List.mem_filter.mpr ⟨hkp.1, by simpa using hkp.2.1⟩
    have hqo : q ∈ groupPathsOf hashFn chunk_size fs directory extensions
        min_size max_size h := by
      unfold groupPathsOf
      exact List.mem_filter.mpr ⟨hkq.1, by simpa using hkq.2.1⟩
    have hgo : (h, groupPathsOf hashFn chunk_size fs directory extensions
        min_size max_size h) ∈ dups :=
      mem_find_duplicates_iff.mpr ⟨rfl, one_lt_length_of_two_mem hpo hqo hpq⟩
    rcases delFoldFS_exec_kills keep_strategy dups fs h _ hgo
      (one_lt_length_of_two_mem hpo hqo hpq) with ⟨k, hk, hkill⟩
    by_cases hpk : p = k
    · have hqk : q ≠ k := by
        rw [← hpk]
        exact fun he => hpq he.symm
      have hgone := hkill q hqo hqk
      rw [← hfs2] at hgone
      exact hgone hkq.2.2
    · have hgone := hkill p hpo hpk
      rw [← hfs2] at hgone
      exact hgone hkp.2.2
  · apply find_duplicates_walk_nil
    unfold walkFiles
    rw [if_neg (show ¬ directory ∈ fs2.dirs from by rw [hdirs]; exact hdir)]

theorem C4_rescan_after_execute_empty_witness :
    (((⟨["d"], [⟨"a", "d/a", [7], 0, true⟩, ⟨"b", "d/b", [7], 1, true⟩,
        ⟨"c", "d/c", [1], 2, true⟩]⟩ : FS)).files.map FSFile.path).Nodup
    ∧ find_duplicates (fun c => c) 8192
        (delete_duplicates
          (find_duplicates (fun c => c) 8192
            ⟨["d"], [⟨"a", "d/a", [7], 0, true⟩, ⟨"b", "d/b", [7], 1, true⟩,
              ⟨"c", "d/c", [1], 2, true⟩]⟩ "d" [] 0 none)
          "oldest" false
          ⟨["d"], [⟨"a", "d/a", [7], 0, true⟩, ⟨"b", "d/b", [7], 1, true⟩,
            ⟨"c", "d/c", [1], 2, true⟩]⟩).2
        "d" [] 0 none = [] :=
  ⟨by decide,
    C4_rescan_after_execute_empty (fun c => c) 8192
      ⟨["d"], [⟨"a", "d/a", [7], 0, true⟩, ⟨"b", "d/b", [7], 1, true⟩,
        ⟨"c", "d/c", [1], 2, true⟩]⟩ "d" [] 0 none "oldest" (by decide)⟩
